import Mathlib

/-!
Verification of the temporal segmentation and background-modeling engine of
the threeML repository (files threeML/utils/binner.py and
threeML/utils/time_series/time_series.py) against its natural-language
specification.

The Python code is shallowly embedded: count/score vectors become lists of
rationals, numpy boolean masks become lists of booleans, Python integer
arithmetic becomes Int/Nat arithmetic (with Int wherever the Python value can
go negative), and code that can raise becomes Option/Except valued.  The
floating-point logarithm used by the Bayesian-blocks fitness function and the
pre-computed prior vector are abstracted as function parameters, since every
claim treated here is about the arithmetic structure around them, not about
the numeric value of a logarithm.
-/

namespace ThreeML

/-! # Background polynomial grade selection

Embeds the grade-selection logic shared by
TimeSeries._fit_global_and_determine_optimum_grade (binned, grades 0..4) and
TimeSeries._unbinned_fit_global_and_determine_optimum_grade (unbinned, grades
0..2) in threeML/utils/time_series/time_series.py lines 828-983.  Both take
the list of per-grade fit scores returned by the external optimizer and run
exactly the same selection code on it.
-/

/-- Embedding of
delta_loglike = [2 * (x[0] - x[1]) for x in zip(log_likelihoods[:-1], log_likelihoods[1:])]
from time_series.py lines 882-885 and 962-965. -/
def deltaLoglike (logLikelihoods : List ℚ) : List ℚ :=
  (logLikelihoods.zip logLikelihoods.tail).map (fun x => 2 * (x.1 - x.2))

/-- Embedding of the grade choice in time_series.py lines 890-903 and 970-983:
mask = delta_loglike >= 9.0; best grade is 0 when the mask has no nonzero
entry and (last nonzero index of the mask) + 1 otherwise. -/
def bestGrade (logLikelihoods : List ℚ) : ℕ :=
  let delta := deltaLoglike logLikelihoods
  let nonzero := (List.range delta.length).filter (fun i => decide ((9 : ℚ) ≤ delta.getD i 0))
  match nonzero.getLast? with
  | none => 0
  | some g => g + 1

/-! # Bayesian blocks segmentation (TemporalBinner.bin_by_bayesian_blocks)

Embeds binner.py lines 358-541.  Arrival times are rationals; the background
integral distribution option is not exercised by the claims (with it absent
the code sets t = arrival times, tstart/tstop = first/last arrival time).
-/

/-- Embedding of the Voronoi midpoints 0.5 * (t[1:] + t[:-1]) from
binner.py line 409. -/
def mids (t : List ℚ) : List ℚ :=
  (t.zip t.tail).map (fun x => (x.1 + x.2) / 2)

/-- Embedding of the initial cell edges
edges = concatenate([[tstart], 0.5 * (t[1:] + t[:-1]), [tstop]])
from binner.py lines 409-411 with tstart, tstop the first and last arrival
time. -/
def bbEdges (t : List ℚ) : List ℚ :=
  [t.headD 0] ++ mids t ++ [t.getLastD 0]

/-- Embedding of block_length = tstop - edges from binner.py line 423. -/
def blockLengths (t : List ℚ) : List ℚ :=
  (bbEdges t).map (fun e => t.getLastD 0 - e)

/-- Embedding of the ordering check from binner.py lines 425-427: the
RuntimeError about out-of-order events is raised exactly when
np.sum(block_length <= 0) > 1. -/
def bbOutOfOrder (t : List ℚ) : Bool :=
  decide (1 < (blockLengths t).countP (fun x => decide (x ≤ 0)))

/-- Embedding of N_k = arange(R + 1, 0, -1) from binner.py line 492: position
k of the descending range holds R + 1 - k. -/
def nkVec (R : ℕ) : List ℚ :=
  (List.range (R + 1)).map (fun k => ((R + 1 - k : ℕ) : ℚ))

/-- Embedding of T_k = block_length[:R + 1] - block_length[R + 1] from
binner.py lines 483-484. -/
def tkVec (blockLength : List ℚ) (R : ℕ) : List ℚ :=
  (List.range (R + 1)).map (fun k => blockLength.getD k 0 - blockLength.getD (R + 1) 0)

/-- Embedding of fit_vec = N_k * log(N_k / T_k) from binner.py line 498, with
the floating-point logarithm abstracted as the parameter lg. -/
def fitVec (lg : ℚ → ℚ) (blockLength : List ℚ) (R : ℕ) : List ℚ :=
  List.zipWith (fun n t => n * lg (n / t)) (nkVec R) (tkVec blockLength R)

/-- Embedding of A_R = fit_vec - priors[R] followed by A_R[1:] += best[:R]
from binner.py lines 501-505, for one iteration R given the list of already
computed best scores. -/
def aRVec (lg : ℚ → ℚ) (blockLength : List ℚ) (priors : ℕ → ℚ)
    (bestSoFar : List ℚ) (R : ℕ) : List ℚ :=
  match (fitVec lg blockLength R).map (fun x => x - priors R) with
  | [] => []
  | h :: tl => h :: List.zipWith (· + ·) tl (bestSoFar.take R)

/-- Embedding of np.argmax: index of the first occurrence of the maximum
value (0 on the empty list). -/
def argmaxIdx : List ℚ → ℕ
  | [] => 0
  | x :: xs => if xs.all (fun y => decide (y ≤ x)) then 0 else argmaxIdx xs + 1

/-- Embedding of the dynamic-programming loop of binner.py lines 480-511:
after n iterations the pair holds the lists best[0:n] and last[0:n]
(i_max = argmax(A_R); last[R] = i_max; best[R] = A_R[i_max]). -/
def bbLoop (lg : ℚ → ℚ) (blockLength : List ℚ) (priors : ℕ → ℚ) :
    ℕ → List ℚ × List ℕ
  | 0 => ([], [])
  | R + 1 =>
    let p := bbLoop lg blockLength priors R
    let A := aRVec lg blockLength priors p.1 R
    let i := argmaxIdx A
    (p.1 ++ [A.getD i 0], p.2 ++ [i])

/-- Modelled from the words of claim C2 (not from the source): the fitness the
claim ascribes to candidate changepoint k at iteration R, with block event
count N_k taken to be R - k. -/
def claimFitnessC2 (lg : ℚ → ℚ) (blockLength : List ℚ) (priors : ℕ → ℚ)
    (R k : ℕ) : ℚ :=
  ((R - k : ℕ) : ℚ) * lg (((R - k : ℕ) : ℚ) / (blockLength.getD k 0 - blockLength.getD (R + 1) 0))
    - priors R

/-! # Rebinner (binner.py lines 12-215)

The constructor loop of Rebinner.__init__ is embedded as a step function over
an explicit state record.  Vector entries are rationals, the mask is a list
of booleans, the grouping array (np.zeros_like of the vector) is a list of
integers, and the slice bounds of the grouping assignment are computed in ℤ
exactly as Python integer arithmetic does.
-/

/-- Loop state of Rebinner.__init__: the accumulated starts and stops lists,
the grouping array, the running sum n, the bin_open flag and the
n_grouped_bins counter (binner.py lines 44-51). -/
structure RState where
  starts : List ℕ
  stops : List ℕ
  grouping : List ℤ
  nAcc : ℚ
  binOpen : Bool
  nGrouped : ℕ
deriving DecidableEq

/-- Embedding of the numpy slice assignment grouping[a:b] = v: every index
of the array falling in [a, b) (bounds taken in ℤ, as Python integers)
receives v. -/
def setSlice (g : List ℤ) (a b : ℤ) (v : ℤ) : List ℤ :=
  (List.range g.length).map
    (fun (j : ℕ) => if a ≤ (j : ℤ) ∧ (j : ℤ) < b then v else g.getD j 0)

/-- Embedding of the grouping update performed when a bin is closed
(binner.py lines 73-77 and 111-115, identical in both close branches):
if n_grouped_bins > 1 then grouping[index - n_grouped_bins + 1 : index] = -1
and grouping[index] = 1. -/
def closeGrouping (g : List ℤ) (index : ℕ) (nGrouped : ℕ) : List ℤ :=
  if 1 < nGrouped then
    (setSlice g ((index : ℤ) - (nGrouped : ℤ) + 1) (index : ℤ) (-1)).set index 1
  else g

/-- Embedding of one iteration of the scan loop of Rebinner.__init__
(binner.py lines 53-119) at position index with vector value b and mask
value m. -/
def rebinStep (minVal : ℚ) (s : RState) (index : ℕ) (b : ℚ) (m : Bool) : RState :=
  if m = false then
    if s.binOpen = false then s
    else
      { s with stops := s.stops ++ [index],
               grouping := closeGrouping s.grouping index s.nGrouped,
               nAcc := 0, binOpen := false, nGrouped := 0 }
  else
    let starts := if s.binOpen = false then s.starts ++ [index] else s.starts
    let n := (if s.binOpen = false then (0 : ℚ) else s.nAcc) + b
    let ng := s.nGrouped + 1
    if minVal ≤ n then
      { starts := starts, stops := s.stops ++ [index + 1],
        grouping := closeGrouping s.grouping index ng,
        nAcc := 0, binOpen := false, nGrouped := 0 }
    else
      { starts := starts, stops := s.stops, grouping := s.grouping,
        nAcc := n, binOpen := true, nGrouped := ng }

/-- Initial loop state: empty starts/stops, grouping = np.zeros_like(vector),
n = 0, bin_open = False, n_grouped_bins = 0. -/
def initState (len : ℕ) : RState :=
  { starts := [], stops := [], grouping := List.replicate len 0,
    nAcc := 0, binOpen := false, nGrouped := 0 }

/-- Embedding of the scan loop itself: fold rebinStep over the remaining
(value, mask) pairs, threading the running index. -/
def rebinGo (minVal : ℚ) : RState → ℕ → List (ℚ × Bool) → RState
  | s, _, [] => s
  | s, i, p :: rest => rebinGo minVal (rebinStep minVal s i p.1 p.2) (i + 1) rest

/-- The constructed Rebinner object: the mask together with the final
starts, stops and grouping arrays. -/
structure Rebinner where
  mask : List Bool
  starts : List ℕ
  stops : List ℕ
  grouping : List ℤ
deriving DecidableEq

/-- Embedding of the body of Rebinner.__init__ after the total check: run
the scan loop over the vector and, if a bin is still open at the end, close
it at len(vector) (binner.py lines 121-124). -/
def rebinnerOf (vector : List ℚ) (minVal : ℚ) (mask : List Bool) : Rebinner :=
  let s := rebinGo minVal (initState vector.length) 0 (vector.zip mask)
  { mask := mask, starts := s.starts,
    stops := if s.binOpen = true then s.stops ++ [vector.length] else s.stops,
    grouping := s.grouping }

/-- Embedding of Rebinner.__init__ (binner.py lines 19-129): the NotEnoughData
error (modelled as none) is raised when np.sum(vector_to_rebin_on), the total
of the whole vector with no mask applied, is below min_value_per_bin. -/
def rebinnerInit (vector : List ℚ) (minVal : ℚ) (mask : List Bool) : Option Rebinner :=
  if vector.sum < minVal then none else some (rebinnerOf vector minVal mask)

/-- The list of (start, stop) half-open index ranges of the constructed bins. -/
def binsList (r : Rebinner) : List (ℕ × ℕ) := r.starts.zip r.stops

/-- Embedding of np.sum(v[a:e]) for 0 ≤ a ≤ e. -/
def sliceSum (v : List ℚ) (a e : ℕ) : ℚ := ((v.drop a).take (e - a)).sum

/-- Embedding of np.sum(v[mask]): the sum of the entries of v at the
mask-included positions. -/
def maskedSum (v : List ℚ) (mask : List Bool) : ℚ :=
  (((v.zip mask).filter (fun p => p.2)).map (fun p => p.1)).sum

/-- Embedding of Rebinner.rebin for a single vector (binner.py lines
146-173): check the length against the stored mask, sum the vector over each
bin range, and assert
abs((sum(rebinned) + 1e-100) / (sum(v[mask]) + 1e-100) - 1) < 1e-4,
returning none when either the length precondition or the assertion fails. -/
def rebinOne (r : Rebinner) (v : List ℚ) : Option (List ℚ) :=
  if v.length = r.mask.length then
    let rebinned := (binsList r).map (fun p => sliceSum v p.1 p.2)
    if |(rebinned.sum + 1 / 10 ^ 100) / (maskedSum v r.mask + 1 / 10 ^ 100) - 1| < 1 / 10 ^ 4
    then some rebinned
    else none
  else none

/-- Declarative description of the grouping marks actually produced by the
scan loop, used to state the amended claim C4.  A bin (a, e) of at least two
elements closed by reaching the threshold (its slice sum is ≥ the threshold)
contributes 1 at its last element index e - 1 and -1 at its other indices;
a bin of at least two elements closed early by a masked-out element (its
slice sum is below the threshold and its stop e < len is the masked-out
closing index) contributes 1 at the masked-out index e itself and -1 at its
indices except the first; every other index, in particular the indices of
single-element bins and of the trailing bin closed at the end of the vector
(stop = len), is left at 0. -/
def markOf (vector : List ℚ) (minVal : ℚ) (len : ℕ) (p : ℕ × ℕ) (j : ℕ) : ℤ :=
  if 2 ≤ p.2 - p.1 ∧ minVal ≤ sliceSum vector p.1 p.2 ∧ p.1 ≤ j ∧ j < p.2 then
    (if j = p.2 - 1 then 1 else -1)
  else if 2 ≤ p.2 - p.1 ∧ sliceSum vector p.1 p.2 < minVal ∧ p.2 < len ∧
      p.1 + 1 ≤ j ∧ j ≤ p.2 then
    (if j = p.2 then 1 else -1)
  else 0

/-- Total grouping mark at index j contributed by a list of bins; the bins
produced by the scan are pairwise disjoint, so at most one term of the sum
is non-zero. -/
def groupMark (vector : List ℚ) (minVal : ℚ) (len : ℕ) (bins : List (ℕ × ℕ))
    (j : ℕ) : ℤ :=
  (bins.map (fun p => markOf vector minVal len p j)).sum

/-- Invariant of the Rebinner scan loop after processing the first i
elements of the vector.  The openStart expression
s.starts.getD s.stops.length 0 is the start index of the currently open bin
when bin_open holds. -/
structure Inv (V0 : List ℚ) (q : ℚ) (M : List Bool) (s : RState) (i : ℕ) : Prop where
  hgl : s.grouping.length = V0.length
  hshape : s.starts.length = s.stops.length + (if s.binOpen = true then 1 else 0)
  hng : s.binOpen = false → s.nGrouped = 0
  hopenlt : s.binOpen = true → s.starts.getD s.stops.length 0 < i
  hopenmask : s.binOpen = true → ∀ j, s.starts.getD s.stops.length 0 ≤ j → j < i →
    M.getD j false = true
  hopenacc : s.binOpen = true → s.nAcc = sliceSum V0 (s.starts.getD s.stops.length 0) i
  hopenng : s.binOpen = true → s.nGrouped = i - s.starts.getD s.stops.length 0
  hopenq : s.binOpen = true → s.nAcc < q
  hbins : ∀ p ∈ s.starts.zip s.stops, p.1 < p.2 ∧ p.2 ≤ i ∧
    (∀ j, p.1 ≤ j → j < p.2 → M.getD j false = true) ∧
    (q ≤ sliceSum V0 p.1 p.2 ∨
      (sliceSum V0 p.1 p.2 < q ∧ p.2 < i ∧ M.getD p.2 false = false))
  hfrontier : ∀ p ∈ s.starts.zip s.stops,
    p.2 ≤ (if s.binOpen = true then s.starts.getD s.stops.length 0 else i)
  hcover : ∀ W : List ℚ, W.length = V0.length →
    ((s.starts.zip s.stops).map (fun p => sliceSum W p.1 p.2)).sum +
      (if s.binOpen = true then sliceSum W (s.starts.getD s.stops.length 0) i else 0) =
    maskedSum (W.take i) (M.take i)
  hgroup : ∀ j, s.grouping.getD j 0 = groupMark V0 q V0.length (s.starts.zip s.stops) j

/-! # TimeSeries controller (time_series.py)

Only the fields read or written by the operations under verification are
modelled.  Attributes that Python deletes with del are modelled as Option
fields set to none.  The per-channel counting and exposure functions of the
format-specific subclass, and the polynomial-fitting transition triggered by
fit_poly=True, are abstract parameters.
-/

/-- State of a TimeSeries object (time_series.py lines 106-161 plus the
attributes mutated by the background-selection and fitting methods). -/
structure TimeSeriesState where
  startTime : ℚ
  stopTime : ℚ
  timeSelectionExists : Bool
  polyFitExists : Bool
  unbinned : Option Bool
  polynomials : Option (List (List ℚ))
  optimalPolynomialGrade : Option ℕ
  bkgIntervals : Option (List (ℚ × ℚ))
  bkgSelectedCounts : Option (List ℚ)
  bkgExposure : ℚ
  counts : List ℚ
  exposure : ℚ
  polyCounts : List ℚ
  polyCountErr : List ℚ
deriving DecidableEq

/-- Embedding of the interval clipping of
TimeSeries._select_background_time_interval (time_series.py lines 423-454):
an interval wholly outside [start_time, stop_time] is dropped with a warning,
a partially outside one is clipped to the bound. -/
def clipIntervals (t0 tN : ℚ) (ivs : List (ℚ × ℚ)) : List (ℚ × ℚ) :=
  (ivs.filter (fun p => !(decide (tN ≤ p.1) || decide (p.2 ≤ t0)))).map
    (fun p => (if p.1 < t0 then t0 else p.1, if tN < p.2 then tN else p.2))

/-- Embedding of np.sum(list_of_count_vectors, axis=0) over the per-interval
channel count vectors (time_series.py line 465). -/
def sumCountVecs : List (List ℚ) → List ℚ
  | [] => []
  | [v] => v
  | v :: rest => List.zipWith (· + ·) v (sumCountVecs rest)

/-- Embedding of TimeSeries._select_background_time_interval (time_series.py
lines 409-469): clip the requested intervals, accumulate the per-channel
background counts (via the subclass hook count_per_channel_over_interval,
abstracted as cnt) and the background exposure (via exposure_over_interval,
abstracted as expo), and store the clipped intervals. -/
def selectBackgroundTimeInterval (cnt : ℚ → ℚ → List ℚ) (expo : ℚ → ℚ → ℚ)
    (ivs : List (ℚ × ℚ)) (s : TimeSeriesState) : TimeSeriesState :=
  let kept := clipIntervals s.startTime s.stopTime ivs
  { s with
    bkgSelectedCounts := some (sumCountVecs (kept.map (fun p => cnt p.1 p.2))),
    bkgExposure := (kept.map (fun p => expo p.1 p.2)).sum,
    bkgIntervals := some kept }

/-- Embedding of TimeSeries._delete_polynominal_fit (time_series.py lines
553-565): raises (none) when no fit exists, otherwise deletes the _unbinned,
_polynomials and _optimal_polynomial_grade attributes and clears
_poly_fit_exists. -/
def deletePolynomialFit (s : TimeSeriesState) : Option TimeSeriesState :=
  if s.polyFitExists = false then none
  else some { s with unbinned := none, polynomials := none,
                     optimalPolynomialGrade := none, polyFitExists := false }

/-- Embedding of TimeSeries.set_background_interval (time_series.py lines
367-407): always apply the new background selection first; when fit_poly is
true run the polynomial-fit transition (abstracted as fitStep, standing for
_set_polynomial_fit_interval); when fit_poly is false and a previous fit
exists, delete the stale fit information. -/
def setBackgroundInterval (cnt : ℚ → ℚ → List ℚ) (expo : ℚ → ℚ → ℚ)
    (fitStep : TimeSeriesState → Option TimeSeriesState)
    (ivs : List (ℚ × ℚ)) (fitPoly : Bool) (s : TimeSeriesState) :
    Option TimeSeriesState :=
  let s1 := selectBackgroundTimeInterval cnt expo ivs s
  if fitPoly = true then fitStep s1
  else if s1.polyFitExists = true then deletePolynomialFit s1
  else some s1

/-- Embedding of the fit-method metadata recording of
TimeSeries._set_polynomial_fit_interval (time_series.py lines 514-520) and
of the deprecated TimeSeries.set_polynomial_fit_interval (lines 606-612):
both the bayes branch and the non-bayes branch store the string "bayes" in
_fit_method_info. -/
def fitMethodRecorded (bayes : Bool) : String :=
  if bayes = true then "bayes" else "bayes"

/-- Snapshot record built by TimeSeries.get_information_dict; only the
fields that differ between its three sources are modelled. -/
structure OutputContainer where
  isPoisson : Bool
  counts : List ℚ
  countsError : Option (List ℚ)
  rates : List ℚ
  rateError : Option (List ℚ)
  exposure : ℚ
deriving DecidableEq

/-- Embedding of TimeSeries.get_information_dict (time_series.py lines
699-795).  The time-selection precondition raises RuntimeError; the extract
branch is tested first and reads _bkg_selected_counts and _bkg_exposure
directly (reading the unset attribute value None would crash Python with a
TypeError during the division, modelled as the TypeError result); only
otherwise is use_poly consulted, with its own RuntimeError precondition and
the paired negative-count clamp; otherwise the raw selected counts are
used. -/
def getInformationDict (usePoly extract : Bool) (s : TimeSeriesState) :
    Except String OutputContainer :=
  if s.timeSelectionExists = false then
    Except.error "RuntimeError: no time selection exists"
  else if extract = true then
    match s.bkgSelectedCounts with
    | none => Except.error "TypeError: background selection attributes unset"
    | some c =>
      Except.ok { isPoisson := true, counts := c, countsError := none,
                  rates := c.map (fun x => x / s.bkgExposure), rateError := none,
                  exposure := s.bkgExposure }
  else if usePoly = true then
    if s.polyFitExists = false then
      Except.error "RuntimeError: polynominal fit did not run yet"
    else
      Except.ok { isPoisson := false,
                  counts := s.polyCounts.map (fun x => if x < 0 then 0 else x),
                  countsError := some (List.zipWith
                    (fun x y => if x < 0 then (0 : ℚ) else y)
                    s.polyCounts s.polyCountErr),
                  rates := s.polyCounts.map
                    (fun x => if x < 0 then 0 else x / s.exposure),
                  rateError := some (List.zipWith
                    (fun x y => if x < 0 then (0 : ℚ) else y / s.exposure)
                    s.polyCounts s.polyCountErr),
                  exposure := s.exposure }
  else
    Except.ok { isPoisson := true, counts := s.counts, countsError := none,
                rates := s.counts.map (fun x => x / s.exposure),
                rateError := none, exposure := s.exposure }

/-! # Generic list access lemmas used throughout -/

theorem getD_append_length {α : Type} (l : List α) (v d : α) :
    (l ++ [v]).getD l.length d = v := by
  induction l with
  | nil => rfl
  | cons x xs ih => simp [ih]

theorem getD_append_length_eq {α : Type} (l : List α) (v d : α) (n : ℕ)
    (h : l.length = n) : (l ++ [v]).getD n d = v := by
  subst h; exact getD_append_length l v d

theorem getD_prefix_append {α : Type} (l l₂ : List α) (i : ℕ) (d : α)
    (h : i < l.length) : (l ++ l₂).getD i d = l.getD i d :=
  List.getD_append l l₂ d i h

theorem getD_map_lt {α β : Type} (f : α → β) (l : List α) (i : ℕ) (d₁ : α)
    (d₂ : β) (h : i < l.length) : (l.map f).getD i d₂ = f (l.getD i d₁) := by
  induction l generalizing i with
  | nil => simp at h
  | cons x xs ih =>
    cases i with
    | zero => rfl
    | succ j => simpa using ih j (by simpa using h)

theorem getD_zipWith_lt {α β γ : Type} (f : α → β → γ) (a : List α)
    (b : List β) (i : ℕ) (d₁ : α) (d₂ : β) (d₃ : γ)
    (h₁ : i < a.length) (h₂ : i < b.length) :
    (List.zipWith f a b).getD i d₃ = f (a.getD i d₁) (b.getD i d₂) := by
  induction a generalizing b i with
  | nil => simp at h₁
  | cons x xs ih =>
    cases b with
    | nil => simp at h₂
    | cons y ys =>
      cases i with
      | zero => rfl
      | succ j =>
        simpa using ih ys j (by simpa using h₁) (by simpa using h₂)

theorem getD_take_lt {α : Type} (l : List α) (n i : ℕ) (d : α) (h : i < n) :
    (l.take n).getD i d = l.getD i d := by
  induction l generalizing n i with
  | nil => simp
  | cons x xs ih =>
    cases n with
    | zero => omega
    | succ m =>
      cases i with
      | zero => rfl
      | succ j => simpa using ih m j (by omega)

theorem getD_range_lt (n i : ℕ) (d : ℕ) (h : i < n) :
    (List.range n).getD i d = i := by
  rw [List.getD_eq_getElem _ _ (by simpa using h)]
  simp

theorem getD_set_eq {α : Type} (l : List α) (i j : ℕ) (v d : α) :
    (l.set i v).getD j d =
      if i = j ∧ i < l.length then v else l.getD j d := by
  induction l generalizing i j with
  | nil => simp
  | cons x xs ih =>
    cases i with
    | zero =>
      cases j with
      | zero => simp
      | succ j2 => simp
    | succ i2 =>
      cases j with
      | zero => simp
      | succ j2 =>
        simp only [List.set_cons_succ, List.getD_cons_succ, ih i2 j2]
        by_cases hij : i2 = j2 <;> simp [hij, Nat.succ_lt_succ_iff]

theorem getD_replicate_zero (n i : ℕ) : (List.replicate n (0 : ℤ)).getD i 0 = 0 := by
  induction n generalizing i with
  | zero => simp
  | succ m ih =>
    cases i with
    | zero => rfl
    | succ j => simp [ih j]

/-! Support lemmas for the Bayesian blocks theorems. -/

theorem length_nkVec (R : ℕ) : (nkVec R).length = R + 1 := by
  simp [nkVec]

theorem length_tkVec (bl : List ℚ) (R : ℕ) : (tkVec bl R).length = R + 1 := by
  simp [tkVec]

theorem length_fitVec (lg : ℚ → ℚ) (bl : List ℚ) (R : ℕ) :
    (fitVec lg bl R).length = R + 1 := by
  simp [fitVec, length_nkVec, length_tkVec]

theorem bbLoop_lengths (lg : ℚ → ℚ) (bl : List ℚ) (priors : ℕ → ℚ) (n : ℕ) :
    ((bbLoop lg bl priors n).1.length = n) ∧ ((bbLoop lg bl priors n).2.length = n) := by
  induction n with
  | zero => simp [bbLoop]
  | succ m ih => simp [bbLoop, ih.1, ih.2]

theorem fitVec_getD (lg : ℚ → ℚ) (bl : List ℚ) (R k : ℕ) (hk : k ≤ R) :
    (fitVec lg bl R).getD k 0 =
      ((R + 1 - k : ℕ) : ℚ) *
        lg (((R + 1 - k : ℕ) : ℚ) / (bl.getD k 0 - bl.getD (R + 1) 0)) := by
  have hkR : k < R + 1 := Nat.lt_succ_of_le hk
  have h₁ : k < (nkVec R).length := by rw [length_nkVec]; exact hkR
  have h₂ : k < (tkVec bl R).length := by rw [length_tkVec]; exact hkR
  rw [fitVec, getD_zipWith_lt _ _ _ _ 0 0 0 h₁ h₂]
  have hn : (nkVec R).getD k 0 = ((R + 1 - k : ℕ) : ℚ) := by
    rw [nkVec, getD_map_lt _ _ _ 0 _ (by simpa using hkR), getD_range_lt _ _ _ hkR]
  have ht : (tkVec bl R).getD k 0 = bl.getD k 0 - bl.getD (R + 1) 0 := by
    rw [tkVec, getD_map_lt _ _ _ 0 _ (by simpa using hkR), getD_range_lt _ _ _ hkR]
  rw [hn, ht]

theorem aRVec_getD (lg : ℚ → ℚ) (bl : List ℚ) (priors : ℕ → ℚ)
    (bestSoFar : List ℚ) (R k : ℕ) (hk : k ≤ R) (hlen : R ≤ bestSoFar.length) :
    (aRVec lg bl priors bestSoFar R).getD k 0 =
      ((R + 1 - k : ℕ) : ℚ) *
          lg (((R + 1 - k : ℕ) : ℚ) / (bl.getD k 0 - bl.getD (R + 1) 0))
        - priors R + (if k = 0 then 0 else bestSoFar.getD (k - 1) 0) := by
  have hbaselen : ((fitVec lg bl R).map (fun x => x - priors R)).length = R + 1 := by
    simp [length_fitVec]
  have hbase : ∀ j, j ≤ R →
      ((fitVec lg bl R).map (fun x => x - priors R)).getD j 0 =
        ((R + 1 - j : ℕ) : ℚ) *
            lg (((R + 1 - j : ℕ) : ℚ) / (bl.getD j 0 - bl.getD (R + 1) 0))
          - priors R := by
    intro j hj
    rw [getD_map_lt _ _ _ 0 _ (by rw [length_fitVec]; exact Nat.lt_succ_of_le hj),
      fitVec_getD lg bl R j hj]
  rcases hb : (fitVec lg bl R).map (fun x => x - priors R) with _ | ⟨h, tl⟩
  · rw [hb] at hbaselen; simp at hbaselen
  · have htl : tl.length = R := by
      have := hbaselen; rw [hb] at this; simpa using this
    rw [aRVec, hb]
    cases k with
    | zero =>
      have := hbase 0 (Nat.zero_le R)
      rw [hb] at this
      simpa using this
    | succ j =>
      have hjR : j < R := Nat.lt_of_succ_le hk
      have htake : (bestSoFar.take R).length = R := by
        simpa using Nat.min_eq_left hlen
      have hz : (List.zipWith (· + ·) tl (bestSoFar.take R)).getD j 0 =
          tl.getD j 0 + (bestSoFar.take R).getD j 0 := by
        exact getD_zipWith_lt _ _ _ _ 0 0 0 (by rw [htl]; exact hjR)
          (by rw [htake]; exact hjR)
      have hbj : tl.getD j 0 =
          ((R + 1 - (j + 1) : ℕ) : ℚ) *
              lg (((R + 1 - (j + 1) : ℕ) : ℚ) / (bl.getD (j + 1) 0 - bl.getD (R + 1) 0))
            - priors R := by
        have := hbase (j + 1) hk
        rw [hb] at this
        simpa using this
      simp only [List.getD_cons_succ, hz, hbj, getD_take_lt _ _ _ _ hjR]
      simp

theorem head_le_getLastD (x : ℚ) (l : List ℚ)
    (h : List.Chain' (· < ·) (x :: l)) : x ≤ (x :: l).getLastD 0 := by
  induction l generalizing x with
  | nil => simp
  | cons y l2 ih =>
    have hxy : x < y := List.chain'_cons.mp h |>.1
    have h2 : List.Chain' (· < ·) (y :: l2) := List.chain'_cons.mp h |>.2
    have : (x :: y :: l2).getLastD 0 = (y :: l2).getLastD 0 := by
      simp [List.getLastD_cons]
    rw [this]
    exact le_of_lt (lt_of_lt_of_le hxy (ih y h2))

theorem mids_lt_getLastD (l : List ℚ) (h : List.Chain' (· < ·) l) :
    ∀ x ∈ mids l, x < l.getLastD 0 := by
  induction l with
  | nil => intro x hx; simp [mids] at hx
  | cons a l2 ih =>
    cases l2 with
    | nil => intro x hx; simp [mids] at hx
    | cons b r =>
      intro x hx
      have hmids : mids (a :: b :: r) = (a + b) / 2 :: mids (b :: r) := by
        simp [mids]
      have hab : a < b := List.chain'_cons.mp h |>.1
      have h2 : List.Chain' (· < ·) (b :: r) := List.chain'_cons.mp h |>.2
      have hlast : (a :: b :: r).getLastD 0 = (b :: r).getLastD 0 := by
        simp [List.getLastD_cons]
      rw [hmids] at hx
      rcases List.mem_cons.mp hx with hx | hx
      · rw [hx, hlast]
        have : (a + b) / 2 < b := by linarith
        exact lt_of_lt_of_le this (head_le_getLastD b r h2)
      · rw [hlast]
        exact ih h2 x hx

/-- Claim C1 counterexample: on the synthetic per-grade score sequence
[-100, -95, -95, -95] the grade-selection code of time_series.py lines
882-903 (and identically 962-983) does not select grade 1, contrary to the
claim. -/
theorem C1_counterexample : bestGrade [-100, -95, -95, -95] ≠ 1 := by
  norm_num [bestGrade, deltaLoglike, List.range_succ]

/-- Claim C1, amended: on [-100, -95, -95, -95] the sequential statistic
computed by the code, Delta[g] = 2 * (logL[g] - logL[g + 1]), evaluates to
[-10, 0, 0], no entry reaches the 9.0 threshold, and grade 0 is selected.  A
grade g + 1 is selected exactly when entry g drops by at least 4.5 relative
to entry g + 1; for example [0, -5, -5, -5] selects grade 1 and
[0, -5, -10, -15] selects the highest passing transition, grade 3. -/
theorem C1_theorem :
    bestGrade [-100, -95, -95, -95] = 0 ∧
    deltaLoglike [-100, -95, -95, -95] = [-10, 0, 0] ∧
    bestGrade [0, -5, -5, -5] = 1 ∧
    bestGrade [0, -5, -10, -15] = 3 := by
  refine ⟨?_, ?_, ?_, ?_⟩ <;> norm_num [bestGrade, deltaLoglike, List.range_succ]

/-- Claim C2 counterexample: at iteration R = 0, candidate k = 0, with
block_length = [3, 2, 0], trivial priors and the logarithm abstracted as the
identity, the fitness value the dynamic program actually computes differs
from the value claimed with block event count N_k = R - k (the code uses
N_k = arange(R + 1, 0, -1), i.e. R - k + 1). -/
theorem C2_counterexample :
    (aRVec (fun x => x) [3, 2, 0] (fun _ => 0)
        (bbLoop (fun x => x) [3, 2, 0] (fun _ => 0) 0).1 0).getD 0 0 ≠
      claimFitnessC2 (fun x => x) [3, 2, 0] (fun _ => 0) 0 0 := by
  norm_num [aRVec, bbLoop, fitVec, nkVec, tkVec, claimFitnessC2, List.range_succ]

/-- Claim C2, amended: in the Bayesian Blocks dynamic program, for every
iteration R and candidate previous changepoint k ≤ R, the score vector entry
for k is N_k * log(N_k / T_k) - prior(R) plus the best cumulative score up to
k - 1 (for k ≥ 1), with N_k = R - k + 1 (not R - k) and
T_k = block_length[k] - block_length[R + 1]; the first arg-max of that vector
is stored in last[R] and the corresponding maximal score in best[R]. -/
theorem C2_theorem (lg : ℚ → ℚ) (bl : List ℚ) (priors : ℕ → ℚ) (R k : ℕ)
    (hk : k ≤ R) :
    (aRVec lg bl priors (bbLoop lg bl priors R).1 R).getD k 0 =
      ((R + 1 - k : ℕ) : ℚ) *
          lg (((R + 1 - k : ℕ) : ℚ) / (bl.getD k 0 - bl.getD (R + 1) 0))
        - priors R
        + (if k = 0 then 0 else (bbLoop lg bl priors R).1.getD (k - 1) 0) ∧
    (bbLoop lg bl priors (R + 1)).2.getD R 0 =
      argmaxIdx (aRVec lg bl priors (bbLoop lg bl priors R).1 R) ∧
    (bbLoop lg bl priors (R + 1)).1.getD R 0 =
      (aRVec lg bl priors (bbLoop lg bl priors R).1 R).getD
        (argmaxIdx (aRVec lg bl priors (bbLoop lg bl priors R).1 R)) 0 := by
  refine ⟨?_, ?_, ?_⟩
  · exact aRVec_getD lg bl priors _ R k hk (le_of_eq (bbLoop_lengths lg bl priors R).1.symm)
  · exact getD_append_length_eq (bbLoop lg bl priors R).2 _ 0 R
      (bbLoop_lengths lg bl priors R).2
  · exact getD_append_length_eq (bbLoop lg bl priors R).1 _ 0 R
      (bbLoop_lengths lg bl priors R).1

/-- Witness for C2_theorem at lg = identity, block_length = [3, 2, 0],
priors constantly 0, R = 1, k = 1. -/
theorem C2_witness :
    (aRVec (fun x => x) [3, 2, 0] (fun _ => 0)
        (bbLoop (fun x => x) [3, 2, 0] (fun _ => 0) 1).1 1).getD 1 0 =
      ((1 + 1 - 1 : ℕ) : ℚ) *
          (fun x => x) (((1 + 1 - 1 : ℕ) : ℚ) /
            (([3, 2, 0] : List ℚ).getD 1 0 - ([3, 2, 0] : List ℚ).getD (1 + 1) 0))
        - (fun _ => (0 : ℚ)) 1
        + (if (1 : ℕ) = 0 then 0
           else (bbLoop (fun x => x) [3, 2, 0] (fun _ => 0) 1).1.getD (1 - 1) 0) ∧
    (bbLoop (fun x => x) [3, 2, 0] (fun _ => 0) (1 + 1)).2.getD 1 0 =
      argmaxIdx (aRVec (fun x => x) [3, 2, 0] (fun _ => 0)
        (bbLoop (fun x => x) [3, 2, 0] (fun _ => 0) 1).1 1) ∧
    (bbLoop (fun x => x) [3, 2, 0] (fun _ => 0) (1 + 1)).1.getD 1 0 =
      (aRVec (fun x => x) [3, 2, 0] (fun _ => 0)
          (bbLoop (fun x => x) [3, 2, 0] (fun _ => 0) 1).1 1).getD
        (argmaxIdx (aRVec (fun x => x) [3, 2, 0] (fun _ => 0)
          (bbLoop (fun x => x) [3, 2, 0] (fun _ => 0) 1).1 1)) 0 :=
  C2_theorem (fun x => x) [3, 2, 0] (fun _ => 0) 1 1 (by decide)

/-- Claim C7 counterexample: the arrival-time sequence [0, 5, 3, 10] is out
of order (entry 2 is smaller than entry 1) and [0, 5, 5, 10] has a duplicated
entry, yet bin_by_bayesian_blocks raises no out-of-order error on either,
because only one block length is non-positive. -/
theorem C7_counterexample :
    bbOutOfOrder [0, 5, 3, 10] = false ∧
    ([0, 5, 3, 10] : List ℚ).getD 2 0 < ([0, 5, 3, 10] : List ℚ).getD 1 0 ∧
    bbOutOfOrder [0, 5, 5, 10] = false ∧
    ([0, 5, 5, 10] : List ℚ).getD 2 0 = ([0, 5, 5, 10] : List ℚ).getD 1 0 := by
  refine ⟨?_, ?_, ?_, ?_⟩ <;>
    norm_num [bbOutOfOrder, blockLengths, bbEdges, mids, List.countP_cons]

/-- Claim C7, amended: the out-of-order error is raised exactly when more
than one of the block lengths tstop - edges[i] is non-positive.  Every
strictly increasing arrival-time sequence with at least two events raises no
error; a non-monotonic or duplicated sequence need not raise it (the check
only detects disorder that produces at least two non-positive block
lengths). -/
theorem C7_theorem (t : List ℚ) :
    (bbOutOfOrder t = true ↔
      1 < (blockLengths t).countP (fun x => decide (x ≤ 0))) ∧
    (2 ≤ t.length → List.Chain' (· < ·) t → bbOutOfOrder t = false) := by
  constructor
  · simp [bbOutOfOrder]
  · intro hlen hchain
    rcases t with _ | ⟨a, t2⟩
    · simp at hlen
    rcases t2 with _ | ⟨b, r⟩
    · simp at hlen
    have hab : a < b := List.chain'_cons.mp hchain |>.1
    have h2 : List.Chain' (· < ·) (b :: r) := List.chain'_cons.mp hchain |>.2
    have hlast : (a :: b :: r).getLastD 0 = (b :: r).getLastD 0 := by
      simp [List.getLastD_cons]
    have hhead : a < (a :: b :: r).getLastD 0 := by
      rw [hlast]
      exact lt_of_lt_of_le hab (head_le_getLastD b r h2)
    have hmid : ∀ x ∈ mids (a :: b :: r), x < (a :: b :: r).getLastD 0 :=
      mids_lt_getLastD _ hchain
    obtain ⟨L, hL⟩ : ∃ L, (a :: b :: r).getLastD 0 = L := ⟨_, rfl⟩
    rw [hL] at hhead hmid
    have hexp : blockLengths (a :: b :: r) =
        [L - a] ++ ((mids (a :: b :: r)).map (fun e => L - e) ++ [L - L]) := by
      rw [blockLengths, bbEdges, hL]
      simp [List.headD_cons]
    have hc1 : List.countP (fun x => decide (x ≤ 0)) [L - a] = 0 := by
      have hna : ¬ (L - a ≤ 0) := by linarith
      simp [List.countP_cons, hna]
    have hc2 : List.countP (fun x => decide (x ≤ 0))
        ((mids (a :: b :: r)).map (fun e => L - e)) = 0 := by
      rw [List.countP_eq_zero]
      intro x hx
      rcases List.mem_map.mp hx with ⟨e, he, hxe⟩
      have := hmid e he
      rw [← hxe]
      simp only [decide_eq_true_eq]
      intro hcon
      linarith
    have hc3 : List.countP (fun x => decide (x ≤ 0)) [L - L] = 1 := by
      simp [List.countP_cons]
    rw [bbOutOfOrder, hexp]
    rw [List.countP_append, List.countP_append, hc1, hc2, hc3]
    norm_num

/-! Support lemmas for the Rebinner theorems. -/

theorem sliceSum_refl (v : List ℚ) (a : ℕ) : sliceSum v a a = 0 := by
  simp [sliceSum]

theorem sliceSum_succ (v : List ℚ) (a i : ℕ) (ha : a ≤ i) (hi : i < v.length) :
    sliceSum v a (i + 1) = sliceSum v a i + v.getD i 0 := by
  unfold sliceSum
  have h1 : i + 1 - a = (i - a) + 1 := by omega
  rw [h1, List.take_succ, List.sum_append]
  have h2 : (v.drop a)[i - a]? = some (v.getD i 0) := by
    rw [List.getElem?_drop]
    have h3 : a + (i - a) = i := by omega
    rw [h3, List.getElem?_eq_getElem hi, List.getD_eq_getElem v 0 hi]
  rw [h2]
  simp

theorem maskedSum_append_single (w : List ℚ) (m : List Bool) (x : ℚ) (y : Bool)
    (h : w.length = m.length) :
    maskedSum (w ++ [x]) (m ++ [y]) =
      maskedSum w m + (if y = true then x else 0) := by
  unfold maskedSum
  rw [List.zip_append h, List.filter_append, List.map_append, List.sum_append]
  congr 1
  cases y <;> simp

theorem take_succ_getD {α : Type} (l : List α) (i : ℕ) (d : α)
    (h : i < l.length) : l.take (i + 1) = l.take i ++ [l.getD i d] := by
  rw [List.take_succ]
  congr 1
  rw [List.getElem?_eq_getElem h, List.getD_eq_getElem l d h]
  rfl

theorem maskedSum_take_succ (W : List ℚ) (M : List Bool) (i : ℕ)
    (hW : i < W.length) (hM : i < M.length) :
    maskedSum (W.take (i + 1)) (M.take (i + 1)) =
      maskedSum (W.take i) (M.take i) +
        (if M.getD i false = true then W.getD i 0 else 0) := by
  rw [take_succ_getD W i 0 hW, take_succ_getD M i false hM,
    maskedSum_append_single _ _ _ _ (by simp [List.length_take]; omega)]

theorem setSlice_length (g : List ℤ) (a b v : ℤ) :
    (setSlice g a b v).length = g.length := by
  simp [setSlice]

theorem getD_default_of_le {α : Type} (l : List α) (n : ℕ) (d : α)
    (h : l.length ≤ n) : l.getD n d = d := by
  induction l generalizing n with
  | nil => simp
  | cons x xs ih =>
    cases n with
    | zero => simp at h
    | succ m => simpa using ih m (by simpa using h)

theorem setSlice_getD (g : List ℤ) (a b : ℤ) (v : ℤ) (j : ℕ) :
    (setSlice g a b v).getD j 0 =
      if (a ≤ (j : ℤ) ∧ (j : ℤ) < b) ∧ j < g.length then v else g.getD j 0 := by
  by_cases hj : j < g.length
  · rw [setSlice, getD_map_lt _ _ _ 0 _ (by simpa using hj), getD_range_lt _ _ _ hj]
    by_cases hab : a ≤ (j : ℤ) ∧ (j : ℤ) < b
    · simp [hab, hj]
    · simp [hab, hj]
  · have h1 : (setSlice g a b v).getD j 0 = 0 :=
      getD_default_of_le _ _ _ (by rw [setSlice_length]; omega)
    have h2 : g.getD j 0 = 0 := getD_default_of_le _ _ _ (by omega)
    rw [h1, h2, if_neg]
    rintro ⟨-, hcon⟩
    omega

theorem closeGrouping_length (g : List ℤ) (index nGrouped : ℕ) :
    (closeGrouping g index nGrouped).length = g.length := by
  unfold closeGrouping
  split
  · rw [List.length_set, setSlice_length]
  · rfl

theorem zip_append_left {α β : Type} (f : List α) (st : List β) (x : α)
    (h : f.length = st.length) : (f ++ [x]).zip st = f.zip st := by
  induction f generalizing st with
  | nil =>
    cases st with
    | nil => rfl
    | cons y ys => simp at h
  | cons a f2 ih =>
    cases st with
    | nil => simp at h
    | cons y ys =>
      simp only [List.cons_append, List.zip_cons_cons]
      rw [ih ys (by simpa using h)]

theorem zip_append_right (f : List ℕ) (st : List ℕ) (e : ℕ)
    (h : f.length = st.length + 1) :
    f.zip (st ++ [e]) = f.zip st ++ [(f.getD st.length 0, e)] := by
  induction f generalizing st with
  | nil => simp at h
  | cons a f2 ih =>
    cases st with
    | nil =>
      have h2 : f2 = [] := List.length_eq_zero.mp (by simpa using h)
      subst h2; rfl
    | cons y ys =>
      simp only [List.cons_append, List.zip_cons_cons, List.length_cons,
        List.getD_cons_succ]
      rw [ih ys (by simpa using h)]

theorem groupMark_append (V0 : List ℚ) (q : ℚ) (len : ℕ)
    (bins : List (ℕ × ℕ)) (p : ℕ × ℕ) (j : ℕ) :
    groupMark V0 q len (bins ++ [p]) j =
      groupMark V0 q len bins j + markOf V0 q len p j := by
  simp [groupMark]

theorem markOf_eq_zero_right (V0 : List ℚ) (q : ℚ) (len : ℕ) (M : List Bool)
    (p : ℕ × ℕ) (j a : ℕ) (hpa : p.2 ≤ a) (haj : a ≤ j)
    (hdisj : q ≤ sliceSum V0 p.1 p.2 ∨ M.getD p.2 false = false)
    (hMa : M.getD a false = true) : markOf V0 q len p j = 0 := by
  unfold markOf
  have h1 : ¬(2 ≤ p.2 - p.1 ∧ q ≤ sliceSum V0 p.1 p.2 ∧ p.1 ≤ j ∧ j < p.2) := by
    rintro ⟨-, -, -, h4⟩; omega
  have h2 : ¬(2 ≤ p.2 - p.1 ∧ sliceSum V0 p.1 p.2 < q ∧ p.2 < len ∧
      p.1 + 1 ≤ j ∧ j ≤ p.2) := by
    rintro ⟨-, hlt, -, -, h5⟩
    have hpa2 : p.2 = a := by omega
    rcases hdisj with hq | hm
    · linarith
    · rw [hpa2, hMa] at hm
      simp at hm
  rw [if_neg h1, if_neg h2]

theorem groupMark_eq_zero_right (V0 : List ℚ) (q : ℚ) (len : ℕ) (M : List Bool)
    (bins : List (ℕ × ℕ)) (j a : ℕ)
    (hfr : ∀ p ∈ bins, p.2 ≤ a) (haj : a ≤ j)
    (hdisj : ∀ p ∈ bins, q ≤ sliceSum V0 p.1 p.2 ∨ M.getD p.2 false = false)
    (hMa : M.getD a false = true) :
    groupMark V0 q len bins j = 0 := by
  unfold groupMark
  apply List.sum_eq_zero
  intro x hx
  rcases List.mem_map.mp hx with ⟨p, hp, rfl⟩
  exact markOf_eq_zero_right V0 q len M p j a (hfr p hp) haj (hdisj p hp) hMa

theorem getD_zip_lt {α β : Type} (a : List α) (b : List β) (i : ℕ)
    (d₁ : α) (d₂ : β) (h₁ : i < a.length) (h₂ : i < b.length) :
    (a.zip b).getD i (d₁, d₂) = (a.getD i d₁, b.getD i d₂) := by
  induction a generalizing b i with
  | nil => simp at h₁
  | cons x xs ih =>
    cases b with
    | nil => simp at h₂
    | cons y ys =>
      cases i with
      | zero => rfl
      | succ j =>
        simpa using ih ys j (by simpa using h₁) (by simpa using h₂)

theorem inv_step_mask_closed (V0 : List ℚ) (q : ℚ) (M : List Bool)
    (s : RState) (i : ℕ) (hM : M.length = V0.length) (hi : i < V0.length)
    (hinv : Inv V0 q M s i) (hm : M.getD i false = false)
    (hbo : s.binOpen = false) : Inv V0 q M s (i + 1) := by
  refine { hgl := hinv.hgl, hshape := hinv.hshape, hng := hinv.hng,
           hopenlt := ?_, hopenmask := ?_, hopenacc := ?_, hopenng := ?_,
           hopenq := ?_, hbins := ?_, hfrontier := ?_, hcover := ?_,
           hgroup := hinv.hgroup }
  · intro h; rw [hbo] at h; simp at h
  · intro h; rw [hbo] at h; simp at h
  · intro h; rw [hbo] at h; simp at h
  · intro h; rw [hbo] at h; simp at h
  · intro h; rw [hbo] at h; simp at h
  · intro p hp
    obtain ⟨h1, h2, h3, h4⟩ := hinv.hbins p hp
    exact ⟨h1, by omega, h3, by
      rcases h4 with h4 | ⟨ha, hb, hc⟩
      · exact Or.inl h4
      · exact Or.inr ⟨ha, by omega, hc⟩⟩
  · intro p hp
    have := hinv.hfrontier p hp
    rw [hbo] at this ⊢
    simp only [Bool.false_eq_true, if_false] at this ⊢
    omega
  · intro W hW
    have hc := hinv.hcover W hW
    rw [hbo] at hc ⊢
    simp only [Bool.false_eq_true, if_false] at hc ⊢
    rw [maskedSum_take_succ W M i (by omega) (by omega), hm]
    simpa using hc

theorem inv_step_mask_open (V0 : List ℚ) (q : ℚ) (M : List Bool)
    (s : RState) (i : ℕ) (hM : M.length = V0.length) (hi : i < V0.length)
    (hinv : Inv V0 q M s i) (hm : M.getD i false = false)
    (hbo : s.binOpen = true) :
    Inv V0 q M
      { s with stops := s.stops ++ [i],
               grouping := closeGrouping s.grouping i s.nGrouped,
               nAcc := 0, binOpen := false, nGrouped := 0 } (i + 1) := by
  have ha_lt : s.starts.getD s.stops.length 0 < i := hinv.hopenlt hbo
  have hmask : ∀ j, s.starts.getD s.stops.length 0 ≤ j → j < i →
      M.getD j false = true := hinv.hopenmask hbo
  have hacc : s.nAcc = sliceSum V0 (s.starts.getD s.stops.length 0) i :=
    hinv.hopenacc hbo
  have hngr : s.nGrouped = i - s.starts.getD s.stops.length 0 := hinv.hopenng hbo
  have hq : s.nAcc < q := hinv.hopenq hbo
  have hlen : s.starts.length = s.stops.length + 1 := by
    have := hinv.hshape; rw [hbo] at this; simpa using this
  obtain ⟨a, haof⟩ : ∃ a, s.starts.getD s.stops.length 0 = a := ⟨_, rfl⟩
  rw [haof] at ha_lt hmask hacc hngr
  have hzip : s.starts.zip (s.stops ++ [i]) =
      s.starts.zip s.stops ++ [(a, i)] := by
    rw [zip_append_right s.starts s.stops i hlen, haof]
  have hfr : ∀ p ∈ s.starts.zip s.stops, p.2 ≤ a := by
    intro p hp
    have h2 := hinv.hfrontier p hp
    rw [if_pos hbo, haof] at h2
    exact h2
  have hsumq : sliceSum V0 a i < q := by rw [← hacc]; exact hq
  refine { hgl := ?_, hshape := ?_, hng := ?_, hopenlt := ?_, hopenmask := ?_,
           hopenacc := ?_, hopenng := ?_, hopenq := ?_, hbins := ?_,
           hfrontier := ?_, hcover := ?_, hgroup := ?_ }
  · rw [closeGrouping_length]; exact hinv.hgl
  · have := hinv.hshape; rw [hbo] at this; simp at this ⊢; omega
  · intro h; rfl
  · intro h; simp at h
  · intro h; simp at h
  · intro h; simp at h
  · intro h; simp at h
  · intro h; simp at h
  · intro p hp
    rw [hzip] at hp
    rcases List.mem_append.mp hp with hp | hp
    · obtain ⟨h1, h2, h3, h4⟩ := hinv.hbins p hp
      exact ⟨h1, by omega, h3, by
        rcases h4 with h4 | ⟨ha2, hb2, hc2⟩
        · exact Or.inl h4
        · exact Or.inr ⟨ha2, by omega, hc2⟩⟩
    · have hpi : p = (a, i) := by simpa using hp
      subst hpi
      exact ⟨ha_lt, by omega,
        fun j hj1 hj2 => hmask j hj1 hj2,
        Or.inr ⟨hsumq, by omega, hm⟩⟩
  · intro p hp
    rw [hzip] at hp
    simp only [Bool.false_eq_true, if_false]
    rcases List.mem_append.mp hp with hp | hp
    · have := hfr p hp; omega
    · have hpi : p = (a, i) := by simpa using hp
      subst hpi; omega
  · intro W hW
    have hc := hinv.hcover W hW
    rw [hbo, haof] at hc
    simp only [if_pos] at hc
    rw [hzip]
    simp only [Bool.false_eq_true, if_false, List.map_append, List.sum_append,
      add_zero]
    rw [maskedSum_take_succ W M i (by omega) (by omega), hm]
    simp only [Bool.false_eq_true, if_false, add_zero]
    rw [← hc]
    simp
  · intro j
    rw [hzip, groupMark_append]
    have hgold := hinv.hgroup j
    have hMa : M.getD a false = true := hmask a (le_refl a) ha_lt
    have hdisj : ∀ p ∈ s.starts.zip s.stops,
        q ≤ sliceSum V0 p.1 p.2 ∨ M.getD p.2 false = false := by
      intro p hp
      rcases (hinv.hbins p hp).2.2.2 with h4 | ⟨-, -, hc2⟩
      · exact Or.inl h4
      · exact Or.inr hc2
    show (closeGrouping s.grouping i s.nGrouped).getD j 0 = _
    by_cases hng2 : 1 < s.nGrouped
    · rw [closeGrouping, if_pos hng2, getD_set_eq, setSlice_length,
        setSlice_getD, hinv.hgl]
      have hia : 2 ≤ i - a := by omega
      have hmarkOf : markOf V0 q V0.length (a, i) j =
          if a + 1 ≤ j ∧ j ≤ i then (if j = i then 1 else -1) else 0 := by
        unfold markOf
        rw [if_neg (by rintro ⟨-, hq2, -, -⟩; linarith)]
        by_cases hji : a + 1 ≤ j ∧ j ≤ i
        · rw [if_pos ⟨by omega, hsumq, by omega, hji.1, hji.2⟩, if_pos hji]
        · rw [if_neg (by rintro ⟨-, -, -, h4, h5⟩; exact hji ⟨h4, h5⟩),
            if_neg hji]
      rw [hmarkOf]
      by_cases hji : a + 1 ≤ j ∧ j ≤ i
      · have hzero : groupMark V0 q V0.length (s.starts.zip s.stops) j = 0 :=
          groupMark_eq_zero_right V0 q V0.length M _ j a hfr (by omega) hdisj hMa
        rw [hzero, if_pos hji]
        by_cases hjieq : j = i
        · rw [if_pos hjieq, if_pos ⟨hjieq.symm, hi⟩]
          simp
        · rw [if_neg hjieq,
            if_neg (fun hcon => hjieq (hcon.1.symm)),
            if_pos ⟨⟨by omega, by omega⟩, by omega⟩]
          simp
      · rw [if_neg hji, if_neg (by rintro ⟨hcon, -⟩; omega),
          if_neg (by rintro ⟨⟨hc1, hc2⟩, -⟩; omega)]
        rw [hgold]
        simp
    · rw [closeGrouping, if_neg hng2]
      have hia : i - a ≤ 1 := by omega
      have hmark0 : markOf V0 q V0.length (a, i) j = 0 := by
        unfold markOf
        rw [if_neg (by rintro ⟨hcon, -⟩; simp at hcon; omega),
          if_neg (by rintro ⟨hcon, -⟩; simp at hcon; omega)]
      rw [hmark0, hgold]
      simp

theorem inv_step_in_fresh_close (V0 : List ℚ) (q : ℚ) (M : List Bool)
    (s : RState) (i : ℕ) (hM : M.length = V0.length) (hi : i < V0.length)
    (hinv : Inv V0 q M s i) (hm : M.getD i false = true)
    (hbo : s.binOpen = false) (hq : q ≤ 0 + V0.getD i 0) :
    Inv V0 q M
      { starts := s.starts ++ [i], stops := s.stops ++ [i + 1],
        grouping := closeGrouping s.grouping i (s.nGrouped + 1),
        nAcc := 0, binOpen := false, nGrouped := 0 } (i + 1) := by
  have hng0 : s.nGrouped = 0 := hinv.hng hbo
  have hlen0 : s.starts.length = s.stops.length := by
    have := hinv.hshape; rw [hbo] at this; simpa using this
  have hzip : (s.starts ++ [i]).zip (s.stops ++ [i + 1]) =
      s.starts.zip s.stops ++ [(i, i + 1)] := by
    rw [List.zip_append hlen0]; rfl
  have hslice : sliceSum V0 i (i + 1) = 0 + V0.getD i 0 := by
    rw [sliceSum_succ V0 i i (le_refl i) hi, sliceSum_refl]
  have hfro : ∀ p ∈ s.starts.zip s.stops, p.2 ≤ i := by
    intro p hp
    have h2 := hinv.hfrontier p hp
    rw [hbo] at h2
    simpa using h2
  refine { hgl := ?_, hshape := ?_, hng := ?_, hopenlt := ?_, hopenmask := ?_,
           hopenacc := ?_, hopenng := ?_, hopenq := ?_, hbins := ?_,
           hfrontier := ?_, hcover := ?_, hgroup := ?_ }
  · rw [closeGrouping_length]; exact hinv.hgl
  · simp [hlen0]
  · intro h; rfl
  · intro h; simp at h
  · intro h; simp at h
  · intro h; simp at h
  · intro h; simp at h
  · intro h; simp at h
  · intro p hp
    rw [hzip] at hp
    rcases List.mem_append.mp hp with hp | hp
    · obtain ⟨h1, h2, h3, h4⟩ := hinv.hbins p hp
      exact ⟨h1, by omega, h3, by
        rcases h4 with h4 | ⟨ha2, hb2, hc2⟩
        · exact Or.inl h4
        · exact Or.inr ⟨ha2, by omega, hc2⟩⟩
    · have hpi : p = (i, i + 1) := by simpa using hp
      subst hpi
      refine ⟨by omega, by omega, ?_, Or.inl (by rw [hslice]; exact hq)⟩
      intro j hj1 hj2
      have : j = i := by omega
      rw [this]; exact hm
  · intro p hp
    rw [hzip] at hp
    simp only [Bool.false_eq_true, if_false]
    rcases List.mem_append.mp hp with hp | hp
    · have := hfro p hp; omega
    · have hpi : p = (i, i + 1) := by simpa using hp
      subst hpi; omega
  · intro W hW
    have hc := hinv.hcover W hW
    rw [hbo] at hc
    simp only [Bool.false_eq_true, if_false, add_zero] at hc
    rw [hzip]
    simp only [Bool.false_eq_true, if_false, List.map_append, List.sum_append,
      add_zero]
    rw [maskedSum_take_succ W M i (by omega) (by omega), hm, ← hc]
    simp only [List.map_cons, List.map_nil, List.sum_cons, List.sum_nil,
      add_zero]
    rw [sliceSum_succ W i i (le_refl i) (by omega), sliceSum_refl]
    simp
  · intro j
    rw [hzip, groupMark_append]
    have hmark0 : markOf V0 q V0.length (i, i + 1) j = 0 := by
      unfold markOf
      rw [if_neg (by rintro ⟨hcon, -⟩; simp at hcon),
        if_neg (by rintro ⟨hcon, -⟩; simp at hcon)]
    rw [hmark0, hng0]
    show (closeGrouping s.grouping i 1).getD j 0 = _
    rw [closeGrouping, if_neg (by omega)]
    rw [hinv.hgroup j]
    simp

theorem inv_step_in_fresh_open (V0 : List ℚ) (q : ℚ) (M : List Bool)
    (s : RState) (i : ℕ) (hM : M.length = V0.length) (hi : i < V0.length)
    (hinv : Inv V0 q M s i) (hm : M.getD i false = true)
    (hbo : s.binOpen = false) (hq : ¬ q ≤ 0 + V0.getD i 0) :
    Inv V0 q M
      { starts := s.starts ++ [i], stops := s.stops,
        grouping := s.grouping, nAcc := 0 + V0.getD i 0,
        binOpen := true, nGrouped := s.nGrouped + 1 } (i + 1) := by
  have hng0 : s.nGrouped = 0 := hinv.hng hbo
  have hlen0 : s.starts.length = s.stops.length := by
    have := hinv.hshape; rw [hbo] at this; simpa using this
  have hopen2 : (s.starts ++ [i]).getD s.stops.length 0 = i :=
    getD_append_length_eq s.starts i 0 s.stops.length hlen0
  have hzip : (s.starts ++ [i]).zip s.stops = s.starts.zip s.stops :=
    zip_append_left s.starts s.stops i hlen0
  have hslice : sliceSum V0 i (i + 1) = 0 + V0.getD i 0 := by
    rw [sliceSum_succ V0 i i (le_refl i) hi, sliceSum_refl]
  have hfro : ∀ p ∈ s.starts.zip s.stops, p.2 ≤ i := by
    intro p hp
    have h2 := hinv.hfrontier p hp
    rw [hbo] at h2
    simpa using h2
  refine { hgl := hinv.hgl, hshape := ?_, hng := ?_, hopenlt := ?_,
           hopenmask := ?_, hopenacc := ?_, hopenng := ?_, hopenq := ?_,
           hbins := ?_, hfrontier := ?_, hcover := ?_, hgroup := ?_ }
  · simp [hlen0]
  · intro h; simp at h
  · intro h; rw [hopen2]; omega
  · intro h j hj1 hj2
    rw [hopen2] at hj1
    have : j = i := by omega
    rw [this]; exact hm
  · intro h
    rw [hopen2, hslice]
  · intro h
    rw [hopen2]
    show s.nGrouped + 1 = i + 1 - i
    omega
  · intro h
    exact lt_of_not_le hq
  · intro p hp
    rw [hzip] at hp
    obtain ⟨h1, h2, h3, h4⟩ := hinv.hbins p hp
    exact ⟨h1, by omega, h3, by
      rcases h4 with h4 | ⟨ha2, hb2, hc2⟩
      · exact Or.inl h4
      · exact Or.inr ⟨ha2, by omega, hc2⟩⟩
  · intro p hp
    rw [hzip] at hp
    rw [if_pos rfl, hopen2]
    exact hfro p hp
  · intro W hW
    have hc := hinv.hcover W hW
    rw [hbo] at hc
    simp only [Bool.false_eq_true, if_false, add_zero] at hc
    rw [hzip, if_pos rfl, hopen2]
    rw [maskedSum_take_succ W M i (by omega) (by omega), hm, ← hc]
    rw [sliceSum_succ W i i (le_refl i) (by omega), sliceSum_refl]
    simp
  · intro j
    rw [hzip]
    exact hinv.hgroup j

theorem inv_step_in_cont_close (V0 : List ℚ) (q : ℚ) (M : List Bool)
    (s : RState) (i : ℕ) (hM : M.length = V0.length) (hi : i < V0.length)
    (hinv : Inv V0 q M s i) (hm : M.getD i false = true)
    (hbo : s.binOpen = true) (hq : q ≤ s.nAcc + V0.getD i 0) :
    Inv V0 q M
      { starts := s.starts, stops := s.stops ++ [i + 1],
        grouping := closeGrouping s.grouping i (s.nGrouped + 1),
        nAcc := 0, binOpen := false, nGrouped := 0 } (i + 1) := by
  have ha_lt : s.starts.getD s.stops.length 0 < i := hinv.hopenlt hbo
  have hmask : ∀ j, s.starts.getD s.stops.length 0 ≤ j → j < i →
      M.getD j false = true := hinv.hopenmask hbo
  have hacc : s.nAcc = sliceSum V0 (s.starts.getD s.stops.length 0) i :=
    hinv.hopenacc hbo
  have hngr : s.nGrouped = i - s.starts.getD s.stops.length 0 := hinv.hopenng hbo
  have hlen : s.starts.length = s.stops.length + 1 := by
    have := hinv.hshape; rw [hbo] at this; simpa using this
  obtain ⟨a, haof⟩ : ∃ a, s.starts.getD s.stops.length 0 = a := ⟨_, rfl⟩
  rw [haof] at ha_lt hmask hacc hngr
  have hsum : q ≤ sliceSum V0 a (i + 1) := by
    rw [sliceSum_succ V0 a i (by omega) hi, ← hacc]
    exact hq
  have hzip : s.starts.zip (s.stops ++ [i + 1]) =
      s.starts.zip s.stops ++ [(a, i + 1)] := by
    rw [zip_append_right s.starts s.stops (i + 1) hlen, haof]
  have hfr : ∀ p ∈ s.starts.zip s.stops, p.2 ≤ a := by
    intro p hp
    have h2 := hinv.hfrontier p hp
    rw [if_pos hbo, haof] at h2
    exact h2
  refine { hgl := ?_, hshape := ?_, hng := ?_, hopenlt := ?_, hopenmask := ?_,
           hopenacc := ?_, hopenng := ?_, hopenq := ?_, hbins := ?_,
           hfrontier := ?_, hcover := ?_, hgroup := ?_ }
  · rw [closeGrouping_length]; exact hinv.hgl
  · simp [hlen]
  · intro h; rfl
  · intro h; simp at h
  · intro h; simp at h
  · intro h; simp at h
  · intro h; simp at h
  · intro h; simp at h
  · intro p hp
    rw [hzip] at hp
    rcases List.mem_append.mp hp with hp | hp
    · obtain ⟨h1, h2, h3, h4⟩ := hinv.hbins p hp
      exact ⟨h1, by omega, h3, by
        rcases h4 with h4 | ⟨ha2, hb2, hc2⟩
        · exact Or.inl h4
        · exact Or.inr ⟨ha2, by omega, hc2⟩⟩
    · have hpi : p = (a, i + 1) := by simpa using hp
      subst hpi
      refine ⟨by omega, by omega, ?_, Or.inl hsum⟩
      intro j hj1 hj2
      by_cases hji : j = i
      · rw [hji]; exact hm
      · exact hmask j hj1 (by omega)
  · intro p hp
    rw [hzip] at hp
    simp only [Bool.false_eq_true, if_false]
    rcases List.mem_append.mp hp with hp | hp
    · have := hfr p hp; omega
    · have hpi : p = (a, i + 1) := by simpa using hp
      subst hpi; omega
  · intro W hW
    have hc := hinv.hcover W hW
    rw [if_pos hbo, haof] at hc
    rw [hzip]
    simp only [Bool.false_eq_true, if_false, List.map_append, List.sum_append,
      add_zero, List.map_cons, List.map_nil, List.sum_cons, List.sum_nil]
    rw [maskedSum_take_succ W M i (by omega) (by omega), hm, ← hc]
    rw [sliceSum_succ W a i (by omega) (by omega)]
    simp [add_assoc]
  · intro j
    rw [hzip, groupMark_append]
    have hgold := hinv.hgroup j
    have hMa : M.getD a false = true := hmask a (le_refl a) ha_lt
    have hdisj : ∀ p ∈ s.starts.zip s.stops,
        q ≤ sliceSum V0 p.1 p.2 ∨ M.getD p.2 false = false := by
      intro p hp
      rcases (hinv.hbins p hp).2.2.2 with h4 | ⟨-, -, hc2⟩
      · exact Or.inl h4
      · exact Or.inr hc2
    show (closeGrouping s.grouping i (s.nGrouped + 1)).getD j 0 = _
    rw [closeGrouping, if_pos (by omega), getD_set_eq, setSlice_length,
      setSlice_getD, hinv.hgl]
    have hmarkOf : markOf V0 q V0.length (a, i + 1) j =
        if a ≤ j ∧ j ≤ i then (if j = i then 1 else -1) else 0 := by
      unfold markOf
      by_cases hji : a ≤ j ∧ j ≤ i
      · rw [if_pos ⟨by omega, hsum, hji.1, by omega⟩, if_pos hji]
        simp only [Nat.add_sub_cancel]
      · rw [if_neg (by rintro ⟨-, -, h3, h4⟩; exact hji ⟨h3, by omega⟩),
          if_neg (by rintro ⟨-, hcon, -, -, -⟩; linarith), if_neg hji]
    rw [hmarkOf]
    by_cases hji : a ≤ j ∧ j ≤ i
    · have hzero : groupMark V0 q V0.length (s.starts.zip s.stops) j = 0 :=
        groupMark_eq_zero_right V0 q V0.length M _ j a hfr (by omega) hdisj hMa
      rw [hzero, if_pos hji]
      by_cases hjieq : j = i
      · rw [if_pos hjieq, if_pos ⟨hjieq.symm, hi⟩]
        simp
      · rw [if_neg hjieq,
          if_neg (fun hcon => hjieq (hcon.1.symm)),
          if_pos ⟨⟨by omega, by omega⟩, by omega⟩]
        simp
    · rw [if_neg hji, if_neg (by rintro ⟨hcon, -⟩; omega),
        if_neg (by rintro ⟨⟨hc1, hc2⟩, -⟩; omega)]
      rw [hgold]
      simp

theorem inv_step_in_cont_open (V0 : List ℚ) (q : ℚ) (M : List Bool)
    (s : RState) (i : ℕ) (hM : M.length = V0.length) (hi : i < V0.length)
    (hinv : Inv V0 q M s i) (hm : M.getD i false = true)
    (hbo : s.binOpen = true) (hq : ¬ q ≤ s.nAcc + V0.getD i 0) :
    Inv V0 q M
      { starts := s.starts, stops := s.stops,
        grouping := s.grouping, nAcc := s.nAcc + V0.getD i 0,
        binOpen := true, nGrouped := s.nGrouped + 1 } (i + 1) := by
  have ha_lt : s.starts.getD s.stops.length 0 < i := hinv.hopenlt hbo
  have hmask : ∀ j, s.starts.getD s.stops.length 0 ≤ j → j < i →
      M.getD j false = true := hinv.hopenmask hbo
  have hacc : s.nAcc = sliceSum V0 (s.starts.getD s.stops.length 0) i :=
    hinv.hopenacc hbo
  have hngr : s.nGrouped = i - s.starts.getD s.stops.length 0 := hinv.hopenng hbo
  have hlen : s.starts.length = s.stops.length + 1 := by
    have := hinv.hshape; rw [hbo] at this; simpa using this
  refine { hgl := hinv.hgl, hshape := ?_, hng := ?_, hopenlt := ?_,
           hopenmask := ?_, hopenacc := ?_, hopenng := ?_, hopenq := ?_,
           hbins := ?_, hfrontier := ?_, hcover := ?_, hgroup := ?_ }
  · simp [hlen]
  · intro h; simp at h
  · intro h
    show s.starts.getD s.stops.length 0 < i + 1
    omega
  · intro h j hj1 hj2
    by_cases hji : j = i
    · rw [hji]; exact hm
    · exact hmask j hj1 (by omega)
  · intro h
    show s.nAcc + V0.getD i 0 =
      sliceSum V0 (s.starts.getD s.stops.length 0) (i + 1)
    rw [sliceSum_succ V0 _ i (by omega) hi, ← hacc]
  · intro h
    show s.nGrouped + 1 = i + 1 - s.starts.getD s.stops.length 0
    omega
  · intro h
    exact lt_of_not_le hq
  · intro p hp
    obtain ⟨h1, h2, h3, h4⟩ := hinv.hbins p hp
    exact ⟨h1, by omega, h3, by
      rcases h4 with h4 | ⟨ha2, hb2, hc2⟩
      · exact Or.inl h4
      · exact Or.inr ⟨ha2, by omega, hc2⟩⟩
  · intro p hp
    have h2 := hinv.hfrontier p hp
    rw [if_pos hbo] at h2
    rw [if_pos rfl]
    exact h2
  · intro W hW
    have hc := hinv.hcover W hW
    rw [if_pos hbo] at hc
    show (List.map (fun p => sliceSum W p.1 p.2) (s.starts.zip s.stops)).sum +
        sliceSum W (s.starts.getD s.stops.length 0) (i + 1) =
      maskedSum (List.take (i + 1) W) (List.take (i + 1) M)
    rw [maskedSum_take_succ W M i (by omega) (by omega), hm, ← hc]
    rw [sliceSum_succ W (s.starts.getD s.stops.length 0) i (by omega) (by omega)]
    simp [add_assoc]
  · intro j
    exact hinv.hgroup j

theorem inv_step (V0 : List ℚ) (q : ℚ) (M : List Bool) (s : RState) (i : ℕ)
    (hM : M.length = V0.length) (hi : i < V0.length) (hinv : Inv V0 q M s i) :
    Inv V0 q M (rebinStep q s i (V0.getD i 0) (M.getD i false)) (i + 1) := by
  cases hm : M.getD i false with
  | false =>
    cases hbo : s.binOpen with
    | false =>
      have he : rebinStep q s i (V0.getD i 0) false = s := by
        simp [rebinStep, hbo]
      rw [he]
      exact inv_step_mask_closed V0 q M s i hM hi hinv hm hbo
    | true =>
      have he : rebinStep q s i (V0.getD i 0) false =
          { s with stops := s.stops ++ [i],
                   grouping := closeGrouping s.grouping i s.nGrouped,
                   nAcc := 0, binOpen := false, nGrouped := 0 } := by
        simp [rebinStep, hbo]
      rw [he]
      exact inv_step_mask_open V0 q M s i hM hi hinv hm hbo
  | true =>
    cases hbo : s.binOpen with
    | false =>
      by_cases hq : q ≤ 0 + V0.getD i 0
      · have he : rebinStep q s i (V0.getD i 0) true =
            { starts := s.starts ++ [i], stops := s.stops ++ [i + 1],
              grouping := closeGrouping s.grouping i (s.nGrouped + 1),
              nAcc := 0, binOpen := false, nGrouped := 0 } := by
          simp [rebinStep, hbo, hq]
          rw [← List.getD_eq_getElem?_getD]
          linarith
        rw [he]
        exact inv_step_in_fresh_close V0 q M s i hM hi hinv hm hbo hq
      · have he : rebinStep q s i (V0.getD i 0) true =
            { starts := s.starts ++ [i], stops := s.stops,
              grouping := s.grouping, nAcc := 0 + V0.getD i 0,
              binOpen := true, nGrouped := s.nGrouped + 1 } := by
          simp [rebinStep, hbo, hq]
          rw [← List.getD_eq_getElem?_getD]
          linarith [lt_of_not_le hq]
        rw [he]
        exact inv_step_in_fresh_open V0 q M s i hM hi hinv hm hbo hq
    | true =>
      by_cases hq : q ≤ s.nAcc + V0.getD i 0
      · have he : rebinStep q s i (V0.getD i 0) true =
            { starts := s.starts, stops := s.stops ++ [i + 1],
              grouping := closeGrouping s.grouping i (s.nGrouped + 1),
              nAcc := 0, binOpen := false, nGrouped := 0 } := by
          simp [rebinStep, hbo, hq]
          rw [← List.getD_eq_getElem?_getD]
          linarith
        rw [he]
        exact inv_step_in_cont_close V0 q M s i hM hi hinv hm hbo hq
      · have he : rebinStep q s i (V0.getD i 0) true =
            { starts := s.starts, stops := s.stops,
              grouping := s.grouping, nAcc := s.nAcc + V0.getD i 0,
              binOpen := true, nGrouped := s.nGrouped + 1 } := by
          simp [rebinStep, hbo, hq]
          rw [← List.getD_eq_getElem?_getD]
          linarith [lt_of_not_le hq]
        rw [he]
        exact inv_step_in_cont_open V0 q M s i hM hi hinv hm hbo hq

theorem inv_init (V0 : List ℚ) (q : ℚ) (M : List Bool) :
    Inv V0 q M (initState V0.length) 0 := by
  refine { hgl := ?_, hshape := ?_, hng := ?_, hopenlt := ?_, hopenmask := ?_,
           hopenacc := ?_, hopenng := ?_, hopenq := ?_, hbins := ?_,
           hfrontier := ?_, hcover := ?_, hgroup := ?_ }
  · simp [initState]
  · simp [initState]
  · intro h; rfl
  · intro h; simp [initState] at h
  · intro h; simp [initState] at h
  · intro h; simp [initState] at h
  · intro h; simp [initState] at h
  · intro h; simp [initState] at h
  · intro p hp; simp [initState] at hp
  · intro p hp; simp [initState] at hp
  · intro W hW; simp [initState, maskedSum]
  · intro j
    show (List.replicate V0.length (0 : ℤ)).getD j 0 = _
    rw [getD_replicate_zero]
    simp [initState, groupMark]

theorem rebinGo_inv (V0 : List ℚ) (q : ℚ) (M : List Bool)
    (hM : M.length = V0.length) :
    ∀ (rest : List (ℚ × Bool)) (s : RState) (i : ℕ),
      (V0.zip M).drop i = rest → i ≤ V0.length → Inv V0 q M s i →
      Inv V0 q M (rebinGo q s i rest) V0.length := by
  intro rest
  induction rest with
  | nil =>
    intro s i hdrop hle hinv
    have hlen : (V0.zip M).length = V0.length := by simp [hM]
    have hge : V0.length ≤ i := by
      by_contra hcon
      have h2 : (V0.zip M).drop i ≠ [] := by
        apply List.ne_nil_of_length_pos
        rw [List.length_drop]
        omega
      exact h2 hdrop
    have hieq : i = V0.length := by omega
    rw [rebinGo]
    exact hieq ▸ hinv
  | cons p rest2 ih =>
    intro s i hdrop hle hinv
    have hlen : (V0.zip M).length = V0.length := by simp [hM]
    have hi : i < V0.length := by
      by_contra hcon
      have h2 : (V0.zip M).drop i = [] := by
        apply List.drop_eq_nil_of_le
        omega
      rw [h2] at hdrop
      simp at hdrop
    have hilen : i < (V0.zip M).length := by omega
    have hsome : (V0.zip M)[i]? = some p := by
      have h0 : ((V0.zip M).drop i)[0]? = (V0.zip M)[i + 0]? :=
        List.getElem?_drop (V0.zip M) i 0
      rw [hdrop] at h0
      simpa using h0.symm
    have hp : p = (V0.getD i 0, M.getD i false) := by
      have h1 : (V0.zip M)[i]? = some ((V0.zip M).getD i (0, false)) := by
        rw [List.getElem?_eq_getElem hilen,
          List.getD_eq_getElem (V0.zip M) (0, false) hilen]
      rw [hsome] at h1
      have h2 := Option.some.inj h1
      rw [h2, getD_zip_lt V0 M i 0 false hi (by omega)]
    have hdrop2 : (V0.zip M).drop (i + 1) = rest2 := by
      have h3 : (V0.zip M).drop (i + 1) = ((V0.zip M).drop i).drop 1 :=
        (List.drop_drop 1 i (V0.zip M)).symm
      rw [hdrop] at h3
      simpa using h3
    rw [rebinGo]
    refine ih (rebinStep q s i p.1 p.2) (i + 1) hdrop2 (by omega) ?_
    subst hp
    exact inv_step V0 q M s i hM hi hinv

theorem rebinnerOf_spec (V0 : List ℚ) (q : ℚ) (M : List Bool)
    (hM : M.length = V0.length) :
    (rebinnerOf V0 q M).mask = M ∧
    (rebinnerOf V0 q M).starts.length = (rebinnerOf V0 q M).stops.length ∧
    (∀ p ∈ binsList (rebinnerOf V0 q M), p.1 < p.2 ∧ p.2 ≤ V0.length ∧
      (∀ j, p.1 ≤ j → j < p.2 → M.getD j false = true) ∧
      (q ≤ sliceSum V0 p.1 p.2 ∨ (p.2 < V0.length ∧ M.getD p.2 false = false) ∨
        p.2 = V0.length)) ∧
    (∀ W : List ℚ, W.length = V0.length →
      ((binsList (rebinnerOf V0 q M)).map (fun p => sliceSum W p.1 p.2)).sum =
        maskedSum W M) ∧
    (∀ j, (rebinnerOf V0 q M).grouping.getD j 0 =
      groupMark V0 q V0.length (binsList (rebinnerOf V0 q M)) j) := by
  obtain ⟨sN, hsN⟩ : ∃ sN, rebinGo q (initState V0.length) 0 (V0.zip M) = sN :=
    ⟨_, rfl⟩
  have hfin : Inv V0 q M sN V0.length := by
    rw [← hsN]
    exact rebinGo_inv V0 q M hM (V0.zip M) (initState V0.length) 0 rfl
      (by omega) (inv_init V0 q M)
  have hr : rebinnerOf V0 q M =
      { mask := M, starts := sN.starts,
        stops := if sN.binOpen = true then sN.stops ++ [V0.length] else sN.stops,
        grouping := sN.grouping } := by
    simp only [rebinnerOf, hsN]
  have hTW : ∀ W : List ℚ, W.length = V0.length → W.take V0.length = W := by
    intro W hW
    rw [← hW]
    exact List.take_length W
  cases hbo : sN.binOpen with
  | false =>
    rw [hbo] at hr
    simp only [Bool.false_eq_true, if_false] at hr
    have hb : binsList (rebinnerOf V0 q M) = sN.starts.zip sN.stops := by
      rw [hr]; rfl
    have hshape2 : sN.starts.length = sN.stops.length := by
      have := hfin.hshape; rw [hbo] at this; simpa using this
    refine ⟨by rw [hr], by rw [hr]; exact hshape2, ?_, ?_, ?_⟩
    · intro p hp
      rw [hb] at hp
      obtain ⟨h1, h2, h3, h4⟩ := hfin.hbins p hp
      refine ⟨h1, h2, h3, ?_⟩
      rcases h4 with h4 | ⟨ha2, hb2, hc2⟩
      · exact Or.inl h4
      · exact Or.inr (Or.inl ⟨hb2, hc2⟩)
    · intro W hW
      rw [hb]
      have hc := hfin.hcover W hW
      rw [hbo] at hc
      simp only [Bool.false_eq_true, if_false, add_zero] at hc
      rw [hc, hTW W hW, ← hM, List.take_length]
    · intro j
      rw [hb]
      have hg : (rebinnerOf V0 q M).grouping = sN.grouping := by rw [hr]
      rw [hg]
      exact hfin.hgroup j
  | true =>
    rw [hbo] at hr
    simp only [if_pos] at hr
    have hlen : sN.starts.length = sN.stops.length + 1 := by
      have := hfin.hshape; rw [hbo] at this; simpa using this
    obtain ⟨a, haof⟩ : ∃ a, sN.starts.getD sN.stops.length 0 = a := ⟨_, rfl⟩
    have ha_lt : a < V0.length := haof ▸ hfin.hopenlt hbo
    have hmask : ∀ j, a ≤ j → j < V0.length → M.getD j false = true := by
      intro j h1 h2
      exact hfin.hopenmask hbo j (haof ▸ h1) h2
    have hlt : sliceSum V0 a V0.length < q := by
      have h1 := hfin.hopenacc hbo
      have h2 := hfin.hopenq hbo
      rw [haof] at h1
      rw [h1] at h2
      exact h2
    have hzip : sN.starts.zip (sN.stops ++ [V0.length]) =
        sN.starts.zip sN.stops ++ [(a, V0.length)] := by
      rw [zip_append_right sN.starts sN.stops V0.length hlen, haof]
    have hb : binsList (rebinnerOf V0 q M) =
        sN.starts.zip sN.stops ++ [(a, V0.length)] := by
      rw [hr]
      show sN.starts.zip (sN.stops ++ [V0.length]) = _
      exact hzip
    have hmark0 : ∀ j, markOf V0 q V0.length (a, V0.length) j = 0 := by
      intro j
      unfold markOf
      rw [if_neg (by rintro ⟨-, hcon, -⟩; linarith),
        if_neg (by rintro ⟨-, -, hcon, -⟩; omega)]
    refine ⟨by rw [hr], ?_, ?_, ?_, ?_⟩
    · rw [hr]
      show sN.starts.length = (sN.stops ++ [V0.length]).length
      simp [hlen]
    · intro p hp
      rw [hb] at hp
      rcases List.mem_append.mp hp with hp | hp
      · obtain ⟨h1, h2, h3, h4⟩ := hfin.hbins p hp
        refine ⟨h1, h2, h3, ?_⟩
        rcases h4 with h4 | ⟨ha2, hb2, hc2⟩
        · exact Or.inl h4
        · exact Or.inr (Or.inl ⟨hb2, hc2⟩)
      · have hpi : p = (a, V0.length) := by simpa using hp
        subst hpi
        exact ⟨ha_lt, le_refl _, fun j h1 h2 => hmask j h1 h2,
          Or.inr (Or.inr rfl)⟩
    · intro W hW
      rw [hb]
      have hc := hfin.hcover W hW
      rw [if_pos hbo, haof] at hc
      rw [List.map_append, List.sum_append]
      simp only [List.map_cons, List.map_nil, List.sum_cons, List.sum_nil,
        add_zero]
      rw [hc, hTW W hW, ← hM, List.take_length]
    · intro j
      rw [hb, groupMark_append, hmark0 j, add_zero]
      have hg : (rebinnerOf V0 q M).grouping = sN.grouping := by rw [hr]
      rw [hg]
      exact hfin.hgroup j

/-- Witness for C7_theorem at the strictly increasing sequence [0, 1, 4]. -/
theorem C7_witness :
    (bbOutOfOrder [0, 1, 4] = true ↔
      1 < (blockLengths [0, 1, 4]).countP (fun x => decide (x ≤ 0))) ∧
    bbOutOfOrder [0, 1, 4] = false :=
  ⟨(C7_theorem [0, 1, 4]).1,
    (C7_theorem [0, 1, 4]).2 (by decide) (by norm_num [List.chain'_cons])⟩

theorem rebinnerInit_some (vector : List ℚ) (minVal : ℚ) (mask : List Bool)
    (r : Rebinner) (hr : rebinnerInit vector minVal mask = some r) :
    r = rebinnerOf vector minVal mask := by
  by_cases h : vector.sum < minVal
  · rw [rebinnerInit, if_pos h] at hr; cases hr
  · rw [rebinnerInit, if_neg h] at hr; exact (Option.some.inj hr).symm

/-- Claim C3 counterexample: for vector [10, 0] with mask [False, True] and
min_value_per_bin 5, the mask-restricted total is 0 < 5, yet construction
succeeds, because Rebinner.__init__ checks np.sum of the whole unmasked
vector (10 ≥ 5). -/
theorem C3_counterexample :
    (rebinnerInit [10, 0] 5 [false, true]).isSome = true ∧
    maskedSum [10, 0] [false, true] < 5 := by
  constructor
  · norm_num [rebinnerInit]
  · norm_num [maskedSum]

/-- Claim C3, amended: Rebinner construction raises the NotEnoughData error
if and only if the total of the whole input vector, with no mask applied, is
below min_value_per_bin; the mask plays no part in the check. -/
theorem C3_theorem (vector : List ℚ) (minVal : ℚ) (mask : List Bool) :
    rebinnerInit vector minVal mask = none ↔ vector.sum < minVal := by
  by_cases h : vector.sum < minVal <;> simp [rebinnerInit, h]

/-- Claim C4 counterexample: for vector [1, 1, 5], mask [True, True, False]
and threshold 5, the single (multi-element) bin is [0, 2), closed by the
masked-out element at index 2; the produced grouping vector is [0, -1, 1]:
the first index of the bin carries 0 (the claim says 1) and the masked-out
index 2 carries 1 (the claim says masked-out indices stay 0). -/
theorem C4_counterexample :
    Option.map Rebinner.grouping (rebinnerInit [1, 1, 5] 5 [true, true, false]) =
      some [0, -1, 1] ∧
    Option.map binsList (rebinnerInit [1, 1, 5] 5 [true, true, false]) =
      some [(0, 2)] ∧
    ([0, -1, 1] : List ℤ).getD 0 0 ≠ 1 ∧
    ([0, -1, 1] : List ℤ).getD 2 0 ≠ 0 := by
  refine ⟨?_, ?_, by decide, by decide⟩
  · norm_num [rebinnerInit, rebinnerOf, rebinGo, rebinStep, initState,
      closeGrouping, setSlice, List.range_succ]
  · norm_num [rebinnerInit, rebinnerOf, rebinGo, rebinStep, initState,
      closeGrouping, setSlice, List.range_succ, binsList]

/-- Claim C4, amended: for every Rebinner built from a vector, threshold and
mask, the grouping value at index j is the sum over the constructed bins of
markOf, which is non-zero for at most one bin: a bin of two or more elements
closed by reaching the threshold marks its last index with 1 and its earlier
indices with -1; a bin of two or more elements closed early by a masked-out
element marks that masked-out closing index with 1 and the bin indices other
than the first with -1; all other indices, including those of single-element
bins and of the trailing bin closed at the end of the vector, stay 0. -/
theorem C4_theorem (vector : List ℚ) (minVal : ℚ) (mask : List Bool)
    (r : Rebinner) (hM : mask.length = vector.length)
    (hr : rebinnerInit vector minVal mask = some r) :
    ∀ j, r.grouping.getD j 0 =
      groupMark vector minVal vector.length (binsList r) j := by
  rw [rebinnerInit_some vector minVal mask r hr]
  exact (rebinnerOf_spec vector minVal mask hM).2.2.2.2

/-- Witness for C4_theorem on vector [1, 1, 5], threshold 5, mask
[True, True, False], at index 2. -/
theorem C4_witness :
    (Rebinner.mk [true, true, false] [0] [2] [0, -1, 1]).grouping.getD 2 0 =
      groupMark [1, 1, 5] 5 ([1, 1, 5] : List ℚ).length
        (binsList (Rebinner.mk [true, true, false] [0] [2] [0, -1, 1])) 2 :=
  C4_theorem [1, 1, 5] 5 [true, true, false]
    (Rebinner.mk [true, true, false] [0] [2] [0, -1, 1]) (by decide)
    (by norm_num [rebinnerInit, rebinnerOf, rebinGo, rebinStep, initState,
      closeGrouping, setSlice, List.range_succ]) 2

/-- Claim C5 counterexample: for vector [1, 0, 10], threshold 5 and mask
[True, False, True], construction succeeds with bins [0, 1) and [2, 3); the
first bin is not the trailing one and its summed value 1 is below the
threshold 5 (it was closed early by the masked-out element at index 1). -/
theorem C5_counterexample :
    Option.map binsList (rebinnerInit [1, 0, 10] 5 [true, false, true]) =
      some [(0, 1), (2, 3)] ∧
    sliceSum [1, 0, 10] 0 1 < 5 := by
  constructor
  · norm_num [rebinnerInit, rebinnerOf, rebinGo, rebinStep, initState,
      closeGrouping, setSlice, List.range_succ, binsList]
  · norm_num [sliceSum]

/-- Claim C5, amended: for every successfully constructed Rebinner, every
bin's summed value is at least the threshold, except possibly bins closed
early by a masked-out element (their stop index is strictly inside the
vector and masked out) and the trailing bin closed at the end of the vector
(stop index = vector length). -/
theorem C5_theorem (vector : List ℚ) (minVal : ℚ) (mask : List Bool)
    (r : Rebinner) (hM : mask.length = vector.length)
    (hr : rebinnerInit vector minVal mask = some r) :
    ∀ p ∈ binsList r, minVal ≤ sliceSum vector p.1 p.2 ∨
      (p.2 < vector.length ∧ mask.getD p.2 false = false) ∨
      p.2 = vector.length := by
  rw [rebinnerInit_some vector minVal mask r hr]
  intro p hp
  exact (((rebinnerOf_spec vector minVal mask hM).2.2.1) p hp).2.2.2

/-- Witness for C5_theorem on vector [1, 0, 10], threshold 5, mask
[True, False, True], at the first bin (0, 1). -/
theorem C5_witness :
    5 ≤ sliceSum [1, 0, 10] (0, 1).1 (0, 1).2 ∨
    ((0, 1).2 < ([1, 0, 10] : List ℚ).length ∧
      ([true, false, true] : List Bool).getD (0, 1).2 false = false) ∨
    (0, 1).2 = ([1, 0, 10] : List ℚ).length :=
  C5_theorem [1, 0, 10] 5 [true, false, true]
    (Rebinner.mk [true, false, true] [0, 2] [1, 3] [0, 0, 0]) (by decide)
    (by
      norm_num [rebinnerInit, rebinnerOf, rebinGo, rebinStep, initState,
        closeGrouping, setSlice, List.range_succ]
      decide) (0, 1) (by decide)

/-- Claim C6 counterexample: for the Rebinner built from vector [1],
threshold 1, mask [True], calling rebin on the length-matching vector
[-1e-100] fails: the masked total is exactly -1e-100, the additive 1e-100
epsilon makes the assert compare 0/0, and the assertion is not satisfied, so
rebin does not succeed for every same-length input vector. -/
theorem C6_counterexample :
    Option.map (fun r => rebinOne r [-(1 / 10 ^ 100)])
      (rebinnerInit [1] 1 [true]) = some none := by
  have h1 : rebinnerInit [1] 1 [true] = some (Rebinner.mk [true] [0] [1] [0]) := by
    norm_num [rebinnerInit, rebinnerOf, rebinGo, rebinStep, initState,
      closeGrouping, setSlice, List.range_succ]
  have h2 : rebinOne (Rebinner.mk [true] [0] [1] [0]) [-(1 / 10 ^ 100)] = none := by
    rw [rebinOne, if_pos (by rfl : [-(1 / 10 ^ 100 : ℚ)].length =
      (Rebinner.mk [true] [0] [1] [0]).mask.length)]
    have hbl : binsList (Rebinner.mk [true] [0] [1] [0]) = [(0, 1)] := rfl
    have hslice : sliceSum [-(1 / 10 ^ 100)] 0 1 = -(1 / 10 ^ 100) := by
      norm_num [sliceSum]
    have hms : maskedSum [-(1 / 10 ^ 100)] [true] = -(1 / 10 ^ 100) := by
      norm_num [maskedSum]
    simp only [hbl, List.map_cons, List.map_nil, hslice, List.sum_cons,
      List.sum_nil, add_zero, hms]
    have hz : (-(1 / 10 ^ 100) + 1 / 10 ^ 100 : ℚ) = 0 := by ring
    rw [hz]
    have hz2 : ((0 : ℚ) / 0) = 0 := div_zero 0
    rw [hz2, if_neg (by norm_num)]
  rw [h1]
  exact congrArg some h2

/-- Claim C6, amended: for every successfully constructed Rebinner and every
vector W of the same length as the mask whose masked total is not exactly
-1e-100, rebin(W) succeeds, and the sum of the rebinned bins equals the sum
of W over the mask-included indices exactly (the bins cover exactly the
mask-included indices, each exactly once, which the summation identity over
arbitrary W expresses). -/
theorem rebinOne_eq_of (r : Rebinner) (W : List ℚ) (msk : List Bool)
    (hmask : r.mask = msk) (hlen : W.length = msk.length)
    (hsum : ((binsList r).map (fun p => sliceSum W p.1 p.2)).sum = maskedSum W msk)
    (hne : maskedSum W msk + 1 / 10 ^ 100 ≠ 0) :
    rebinOne r W = some ((binsList r).map (fun p => sliceSum W p.1 p.2)) := by
  subst hmask
  rw [rebinOne, if_pos hlen]
  have hC : |(((binsList r).map (fun p => sliceSum W p.1 p.2)).sum + 1 / 10 ^ 100) /
      (maskedSum W r.mask + 1 / 10 ^ 100) - 1| < 1 / 10 ^ 4 := by
    rw [hsum]
    have h1 : (maskedSum W r.mask + 1 / 10 ^ 100) /
        (maskedSum W r.mask + 1 / 10 ^ 100) = 1 := div_self hne
    rw [h1]
    norm_num
  exact if_pos hC

theorem C6_theorem (vector : List ℚ) (minVal : ℚ) (mask : List Bool)
    (r : Rebinner) (hM : mask.length = vector.length)
    (hr : rebinnerInit vector minVal mask = some r) (W : List ℚ)
    (hW : W.length = mask.length)
    (hne : maskedSum W mask ≠ -(1 / 10 ^ 100)) :
    rebinOne r W = some ((binsList r).map (fun p => sliceSum W p.1 p.2)) ∧
    ((binsList r).map (fun p => sliceSum W p.1 p.2)).sum = maskedSum W mask := by
  have hreq : r = rebinnerOf vector minVal mask :=
    rebinnerInit_some vector minVal mask r hr
  subst hreq
  obtain ⟨hmask, -, -, hcov, -⟩ := rebinnerOf_spec vector minVal mask hM
  have hsum : ((binsList (rebinnerOf vector minVal mask)).map
      (fun p => sliceSum W p.1 p.2)).sum = maskedSum W mask :=
    hcov W (by rw [hW, hM])
  have hx : maskedSum W mask + 1 / 10 ^ 100 ≠ 0 := by
    intro hcon
    apply hne
    linarith
  exact ⟨rebinOne_eq_of (rebinnerOf vector minVal mask) W mask hmask hW hsum hx,
    hsum⟩

/-- Witness for C6_theorem on the Rebinner built from vector [1], threshold
1, mask [True], applied to the vector [2]. -/
theorem C6_witness :
    rebinOne (Rebinner.mk [true] [0] [1] [0]) [2] =
      some ((binsList (Rebinner.mk [true] [0] [1] [0])).map
        (fun p => sliceSum [2] p.1 p.2)) ∧
    ((binsList (Rebinner.mk [true] [0] [1] [0])).map
      (fun p => sliceSum [2] p.1 p.2)).sum = maskedSum [2] [true] :=
  C6_theorem [1] 1 [true] (Rebinner.mk [true] [0] [1] [0]) (by decide)
    (by norm_num [rebinnerInit, rebinnerOf, rebinGo, rebinStep, initState,
      closeGrouping, setSlice, List.range_succ]) [2] (by decide)
    (by norm_num [maskedSum])

/-- Claim C8: calling set_background_interval with fit_poly=False on a
TimeSeries whose polynomial fit exists discards the stale fit state — the
result is exactly the newly background-selected state with _poly_fit_exists
cleared and the _unbinned, _polynomials and _optimal_polynomial_grade
attributes deleted — while the new background selection (clipped intervals,
accumulated counts and exposure) is applied. -/
theorem C8_theorem (cnt : ℚ → ℚ → List ℚ) (expo : ℚ → ℚ → ℚ)
    (fitStep : TimeSeriesState → Option TimeSeriesState)
    (ivs : List (ℚ × ℚ)) (s : TimeSeriesState)
    (h : s.polyFitExists = true) :
    setBackgroundInterval cnt expo fitStep ivs false s =
      some { selectBackgroundTimeInterval cnt expo ivs s with
             unbinned := none, polynomials := none,
             optimalPolynomialGrade := none, polyFitExists := false } ∧
    (selectBackgroundTimeInterval cnt expo ivs s).bkgIntervals =
      some (clipIntervals s.startTime s.stopTime ivs) ∧
    (selectBackgroundTimeInterval cnt expo ivs s).bkgSelectedCounts =
      some (sumCountVecs ((clipIntervals s.startTime s.stopTime ivs).map
        (fun p => cnt p.1 p.2))) ∧
    (selectBackgroundTimeInterval cnt expo ivs s).bkgExposure =
      ((clipIntervals s.startTime s.stopTime ivs).map
        (fun p => expo p.1 p.2)).sum := by
  have hsel : (selectBackgroundTimeInterval cnt expo ivs s).polyFitExists = true := h
  refine ⟨?_, rfl, rfl, rfl⟩
  simp [setBackgroundInterval, deletePolynomialFit, hsel]

/-- Witness for C8_theorem on a concrete fitted state with one background
interval. -/
theorem C8_witness :
    setBackgroundInterval (fun _ _ => [3]) (fun _ _ => 2) (fun _ => none)
        [(1, 2)] false
        (TimeSeriesState.mk 0 10 true true (some true) (some [[1]]) (some 2)
          none none 0 [0] 1 [] []) =
      some { selectBackgroundTimeInterval (fun _ _ => [3]) (fun _ _ => 2)
              [(1, 2)]
              (TimeSeriesState.mk 0 10 true true (some true) (some [[1]])
                (some 2) none none 0 [0] 1 [] []) with
             unbinned := none, polynomials := none,
             optimalPolynomialGrade := none, polyFitExists := false } :=
  (C8_theorem (fun _ _ => [3]) (fun _ _ => 2) (fun _ => none) [(1, 2)]
    (TimeSeriesState.mk 0 10 true true (some true) (some [[1]]) (some 2)
      none none 0 [0] 1 [] []) rfl).1

/-- Claim C9: the fit-method metadata string recorded by the
background-interval fitting code is "bayes" for both values of the bayes
flag (time_series.py lines 514-520 and 606-612 assign the same string in
both branches). -/
theorem C9_theorem :
    (∀ b : Bool, fitMethodRecorded b = "bayes") ∧
    fitMethodRecorded true = fitMethodRecorded false :=
  ⟨fun b => by cases b <;> rfl, rfl⟩

/-- Claim C10: with an active time selection, get_information_dict with
extract=True builds its output from the background-selected counts and
background exposure regardless of use_poly: the result is identical for
use_poly True and False, equals the extract-branch container whenever
background-selected counts are stored, and is never the
missing-polynomial-fit error even when no polynomial fit exists (the
extract branch is tested before use_poly and performs no check of the
polynomial-fit or background-selection state flags). -/
theorem C10_theorem (s : TimeSeriesState) (u₁ u₂ : Bool)
    (h : s.timeSelectionExists = true) :
    getInformationDict u₁ true s = getInformationDict u₂ true s ∧
    (∀ c, s.bkgSelectedCounts = some c →
      getInformationDict u₁ true s = Except.ok
        { isPoisson := true, counts := c, countsError := none,
          rates := c.map (fun x => x / s.bkgExposure), rateError := none,
          exposure := s.bkgExposure }) ∧
    getInformationDict u₁ true s ≠
      Except.error "RuntimeError: polynominal fit did not run yet" := by
  refine ⟨?_, ?_, ?_⟩
  · simp [getInformationDict, h]
  · intro c hc
    simp [getInformationDict, h, hc]
  · cases hbc : s.bkgSelectedCounts with
    | none =>
      simp [getInformationDict, h, hbc]
    | some c =>
      simp [getInformationDict, h, hbc]

/-- Witness for C10_theorem on a concrete state with a time selection, no
polynomial fit, and stored background-selected counts. -/
theorem C10_witness :
    getInformationDict true true
        (TimeSeriesState.mk 0 10 true false none none none none (some [4]) 2
          [1] 1 [] []) =
      getInformationDict false true
        (TimeSeriesState.mk 0 10 true false none none none none (some [4]) 2
          [1] 1 [] []) :=
  (C10_theorem
    (TimeSeriesState.mk 0 10 true false none none none none (some [4]) 2
      [1] 1 [] []) true false rfl).1

end ThreeML
